import Mathlib

/-!
Verification of the incremental LZ4 frame-codec layer of xmake
(`core/src/xmake/lz4/prefix.h`): the compression stream
(`xm_lz4_cstream_compress`) and the decompression stream
(`xm_lz4_dstream_decompress`), shallowly embedded over an abstract codec
provider (the external LZ4F primitives, which are a vendored third-party
library and are treated per the specification as an opaque collaborator
with a narrow contract).

Bytes are modelled as `Nat`; buffers owned by the streams are modelled as
explicit lists of their full allocated length, with writes at an offset
(`listWrite`) mirroring `tb_memcpy`/`tb_memmov` into the raw arrays.
A feed call returns `FeedResult`: `.ok s out` models a non-negative
return value with `*podata` pointing at `out`, and `.err s` models the
`-1` return (the stream object, mutated in place up to the failing
check, is `s`).
-/

/-- A byte (value below 256; the codec layer never inspects byte values). -/
abbrev Byte := Nat

/-- `LZ4F_HEADER_SIZE_MAX`: size of the `header` scratch arrays in both
stream structs, and the number of bytes the decoder accumulates before
parsing the frame header (`sizeof(stream->header)` in the C source). -/
def LZ4F_HEADER_SIZE_MAX : Nat := 19

/-- `HEADER_SIZE` as the spec calls it: identical to `LZ4F_HEADER_SIZE_MAX`. -/
def HEADER_SIZE : Nat := LZ4F_HEADER_SIZE_MAX

/-- Modelled from the spec: `TB_STREAM_BLOCK_MAXN`, the implementation-wide
constant giving the size of the decompression stream's fixed output buffer
(`output[TB_STREAM_BLOCK_MAXN]`).  Its definition lives in the vendored
tbox library, outside the material under verification; the value 8192 is
the constant of that library. -/
def TB_STREAM_BLOCK_MAXN : Nat := 8192

/-- Block size identifiers of the LZ4 frame format (`LZ4F_blockSizeID_t`). -/
def LZ4F_default : Nat := 0

/-- `LZ4F_max64KB` -/
def LZ4F_max64KB : Nat := 4

/-- `LZ4F_max256KB` -/
def LZ4F_max256KB : Nat := 5

/-- `LZ4F_max1MB` -/
def LZ4F_max1MB : Nat := 6

/-- `LZ4F_max4MB` -/
def LZ4F_max4MB : Nat := 7

/-- Write `data` into the array `arr` starting at offset `pos`, leaving the
bytes before `pos` and after `pos + data.length` unchanged: the model of
`tb_memcpy(arr + pos, data, data.length)` on a raw buffer. -/
def listWrite (arr : List Byte) (pos : Nat) (data : List Byte) : List Byte :=
  arr.take pos ++ data ++ arr.drop (pos + data.length)

/-- Result of one feed call.  `ok s out` is a return value `≥ 0` with the
output view `out` (the returned value is `out.length`); `err s` is the
`-1` return.  In both cases `s` is the stream object after the call (the C
functions mutate the stream in place through a pointer). -/
inductive FeedResult (σ : Type _) where
  | ok (s : σ) (out : List Byte)
  | err (s : σ)
deriving DecidableEq

/-- The stream object after the call, whichever way the call ended. -/
def FeedResult.post {σ : Type _} : FeedResult σ → σ
  | .ok s _ => s
  | .err s => s

/-- The `tb_long_t` value the C function returns: `-1` on error, the
produced byte count otherwise. -/
def FeedResult.retval {σ : Type _} : FeedResult σ → Int
  | .ok _ out => (out.length : Int)
  | .err _ => -1

/-- The abstract codec provider: the narrow contract of the external LZ4F
primitives consumed by the stream layer.  The two `Prop` fields are the
documented guarantees of `LZ4F_compressBegin` (it writes at most
`LZ4F_HEADER_SIZE_MAX` bytes) and `LZ4F_decompress` (it consumes at most
the bytes offered and produces at most the output capacity). -/
structure Codec where
  CCtx : Type
  DCtx : Type
  compressBegin : CCtx → Option (CCtx × List Byte)
  compressUpdate : CCtx → List Byte → Option (CCtx × List Byte)
  getFrameInfo : DCtx → List Byte → Option (DCtx × Nat × Nat)
  decompress : DCtx → Nat → List Byte → Option (DCtx × List Byte × Nat)
  compressBegin_le : ∀ c r, compressBegin c = some r →
    r.2.length ≤ LZ4F_HEADER_SIZE_MAX
  decompress_out_le : ∀ d cap src r, decompress d cap src = some r →
    r.2.1.length ≤ cap
  decompress_consumed_le : ∀ d cap src r, decompress d cap src = some r →
    r.2.2 ≤ src.length

/-- The `switch (info.blockSizeID)` of `xm_lz4_dstream_decompress`:
maps the negotiated block-size class to the capacity of the lazily
allocated input buffer; `none` is the `default: return -1` branch. -/
def blockMaxn (id : Nat) : Option Nat :=
  if id = LZ4F_default then some (64 * 1024)
  else if id = LZ4F_max64KB then some (64 * 1024)
  else if id = LZ4F_max256KB then some (256 * 1024)
  else if id = LZ4F_max1MB then some (1 * 1024 * 1024)
  else if id = LZ4F_max4MB then some (4 * 1024 * 1024)
  else none

/-- `xm_lz4_cstream_t`: the compression stream state.  `buffer` /
`buffer_maxn` (the compressed-output scratch buffer) are not modelled as
stored bytes: the output view is returned directly. -/
structure CStream (C : Codec) where
  cctx : C.CCtx
  write_maxn : Nat
  header_written : Bool
  header : List Byte

/-- `xm_lz4_cstream_init`: zero-initialises the stream, sets
`write_maxn = 64 * 1024`, creates the context and pre-computes the frame
header into the (zeroed) `header` scratch array via `LZ4F_compressBegin`.
Failure of context creation or header generation yields no stream. -/
def xm_lz4_cstream_init (C : Codec) (c0 : C.CCtx) : Option (CStream C) :=
  match C.compressBegin c0 with
  | none => none
  | some (c, hb) =>
    some { cctx := c
           write_maxn := 64 * 1024
           header_written := false
           header := hb ++ List.replicate (LZ4F_HEADER_SIZE_MAX - hb.length) 0 }

/-- `xm_lz4_cstream_compress`: one feed call on the compression stream,
translated check-for-check from the C source. -/
def xm_lz4_cstream_compress (C : Codec) (s : CStream C) (idata : List Byte) :
    FeedResult (CStream C) :=
  if idata.length = 0 then .err s
  else if ¬ idata.length ≤ s.write_maxn then .err s
  else if s.header_written = false then
    .ok { s with header_written := true } s.header
  else
    match C.compressUpdate s.cctx idata with
    | none => .err s
    | some (c, out) => .ok { s with cctx := c } out

/-- `xm_lz4_dstream_t`: the decompression stream state.  `buffer` is
`none` until the lazy allocation that follows header parsing; once
allocated it is a list of length `buffer_maxn` of which the first
`buffer_size` bytes are the buffered undecoded input. -/
structure DStream (C : Codec) where
  dctx : C.DCtx
  buffer : Option (List Byte)
  buffer_size : Nat
  buffer_maxn : Nat
  header_size : Nat
  header : List Byte

/-- `xm_lz4_dstream_init`: zero-initialised stream with only the context
created; every buffer beyond the header scratch is allocated lazily. -/
def xm_lz4_dstream_init (C : Codec) (d0 : C.DCtx) : DStream C :=
  { dctx := d0
    buffer := none
    buffer_size := 0
    buffer_maxn := 0
    header_size := 0
    header := List.replicate LZ4F_HEADER_SIZE_MAX 0 }

/-- The tail of `xm_lz4_dstream_decompress` starting at its line 232
(`tb_check_return_val(stream->header_size == header_size && isize, 0)`):
the early "need more input" success, the overflow assert, the append of
the remaining chunk bytes, the decompress call on the buffered bytes, and
the `tb_memmov` compaction of the unconsumed leftover.  `rest` is the
chunk with the header-consumed prefix already dropped. -/
def dstream_blockPhase (C : Codec) (s2 : DStream C) (rest : List Byte) :
    FeedResult (DStream C) :=
  if s2.header_size = HEADER_SIZE ∧ rest.length ≠ 0 then
    match s2.buffer with
    | none => .err s2
    | some arr =>
      if s2.buffer_size + rest.length ≤ s2.buffer_maxn then
        let arr1 := listWrite arr s2.buffer_size rest
        let bs1 := s2.buffer_size + rest.length
        let s3 : DStream C := { s2 with buffer := some arr1, buffer_size := bs1 }
        match C.decompress s3.dctx TB_STREAM_BLOCK_MAXN (arr1.take bs1) with
        | none => .err s3
        | some (d, out, consumed) =>
          let arr2 := if consumed < bs1
                      then listWrite arr1 0 ((arr1.take bs1).drop consumed)
                      else arr1
          .ok { s3 with dctx := d
                        buffer := some arr2
                        buffer_size := bs1 - consumed } out
      else .err s2
  else .ok s2 []

/-- `xm_lz4_dstream_decompress`: one feed call on the decompression
stream, translated check-for-check from the C source: header
accumulation and one-shot parse, then the block phase
(`dstream_blockPhase`, the code from line 232 on). -/
def xm_lz4_dstream_decompress (C : Codec) (s : DStream C) (idata : List Byte) :
    FeedResult (DStream C) :=
  if idata.length = 0 then .err s
  else if s.header_size < HEADER_SIZE then
    let size := min (HEADER_SIZE - s.header_size) idata.length
    let s1 : DStream C :=
      { s with header := listWrite s.header s.header_size (idata.take size)
               header_size := s.header_size + size }
    let rest := idata.drop size
    if s1.header_size = HEADER_SIZE then
      match C.getFrameInfo s1.dctx s1.header with
      | none => .err s1
      | some (d, id, _consumed) =>
        match blockMaxn id with
        | none => .err { s1 with dctx := d }
        | some maxn =>
          dstream_blockPhase C
            { s1 with dctx := d
                      buffer_maxn := maxn
                      buffer := some (List.replicate maxn 0) } rest
    else dstream_blockPhase C s1 rest
  else dstream_blockPhase C s idata

/-- Run a sequence of feed calls on the compression stream, collecting the
output views; `none` as soon as one call returns `-1`. -/
def cstream_run (C : Codec) (s : CStream C) :
    List (List Byte) → Option (CStream C × List (List Byte))
  | [] => some (s, [])
  | c :: cs =>
    match xm_lz4_cstream_compress C s c with
    | .err _ => none
    | .ok s1 out =>
      match cstream_run C s1 cs with
      | none => none
      | some (s2, outs) => some (s2, out :: outs)

/-- Run a sequence of feed calls on the decompression stream, collecting
the output views; `none` as soon as one call returns `-1`. -/
def dstream_run (C : Codec) (s : DStream C) :
    List (List Byte) → Option (DStream C × List (List Byte))
  | [] => some (s, [])
  | c :: cs =>
    match xm_lz4_dstream_decompress C s c with
    | .err _ => none
    | .ok s1 out =>
      match dstream_run C s1 cs with
      | none => none
      | some (s2, outs) => some (s2, out :: outs)

/-!
## A concrete codec instance

Modelled from the spec: the external codec provider (LZ4F) is not part of
the material under verification, so a deterministic model codec is
supplied, faithful to the spec's narrow contract (§6): `compressBegin`
produces a header announcing a block-size class, `compressUpdate` turns
one chunk into one self-delimiting compressed block, `getFrameInfo`
extracts the block-size class from the header (consuming only part of the
accumulated header bytes), and `decompress` consumes whole buffered
blocks while the decoded bytes fit the output capacity, reporting how
many input bytes it consumed.
-/

/-- Four little-endian length bytes: the block delimiter of the model
codec's block format. -/
def lenBytes (n : Nat) : List Byte :=
  [n % 256, n / 256 % 256, n / 65536 % 256, n / 16777216 % 256]

/-- Read back the four little-endian length bytes at the front of a
buffer; a buffer shorter than four bytes reads as zero. -/
def decodeLen : List Byte → Nat
  | b0 :: b1 :: b2 :: b3 :: _ => b0 + 256 * b1 + 65536 * b2 + 16777216 * b3
  | _ => 0

/-- One compressed block of the model codec: four length bytes followed by
the raw payload. -/
def encodeBlock (p : List Byte) : List Byte :=
  lenBytes p.length ++ p

/-- Greedy block decoder: while a whole block is present and its payload
still fits in the remaining output capacity, consume it and emit its
payload; first component is the emitted output, second the number of
input bytes consumed.  Fuel-driven; `src.length` fuel always suffices. -/
def decodeBlocks : Nat → Nat → List Byte → List Byte × Nat
  | 0, _, _ => ([], 0)
  | fuel + 1, cap, src =>
    let n := decodeLen src
    if 4 + n ≤ src.length ∧ n ≤ cap then
      let r := decodeBlocks fuel (cap - n) (src.drop (4 + n))
      ((src.drop 4).take n ++ r.1, 4 + n + r.2)
    else ([], 0)

theorem decodeBlocks_out_le (fuel cap : Nat) (src : List Byte) :
    (decodeBlocks fuel cap src).1.length ≤ cap := by
  induction fuel generalizing cap src with
  | zero => simp [decodeBlocks]
  | succ fuel ih =>
    simp only [decodeBlocks]
    split
    · rename_i h
      have h2 := ih (cap - decodeLen src) (src.drop (4 + decodeLen src))
      simp only [List.length_append, List.length_take, List.length_drop]
      omega
    · simp

theorem decodeBlocks_consumed_le (fuel cap : Nat) (src : List Byte) :
    (decodeBlocks fuel cap src).2 ≤ src.length := by
  induction fuel generalizing cap src with
  | zero => simp [decodeBlocks]
  | succ fuel ih =>
    simp only [decodeBlocks]
    split
    · rename_i h
      have h2 := ih (cap - decodeLen src) (src.drop (4 + decodeLen src))
      simp only [List.length_drop] at h2
      omega
    · simp

/-- Modelled from the spec: the deterministic model codec.  Contexts are
stateless; the pre-computed header is the single byte selecting the
64KB block-size class (`getFrameInfo` reads it back from the first
accumulated header byte and reports 7 of the 19 header bytes as
consumed, as the real primitive does for a default frame header). -/
def lz4ModelCodec : Codec where
  CCtx := Unit
  DCtx := Unit
  compressBegin _ := some ((), [LZ4F_max64KB])
  compressUpdate _ p := some ((), encodeBlock p)
  getFrameInfo _ h := some ((), h.headI, 7)
  decompress _ cap src := some ((), decodeBlocks src.length cap src)
  compressBegin_le := by
    intro c r h
    simp only [Option.some_inj] at h
    subst h
    simp [LZ4F_HEADER_SIZE_MAX]
  decompress_out_le := by
    intro d cap src r h
    simp only [Option.some_inj] at h
    subst h
    exact decodeBlocks_out_le _ _ _
  decompress_consumed_le := by
    intro d cap src r h
    simp only [Option.some_inj] at h
    subst h
    exact decodeBlocks_consumed_le _ _ _

/-- The 19-byte header the model compression stream emits on its first
feed call: the byte written by `compressBegin`, zero-padded to
`LZ4F_HEADER_SIZE_MAX` by the zero-initialised scratch array. -/
def modelHeader : List Byte :=
  LZ4F_max64KB :: List.replicate 18 0

/-- The model compression stream as `xm_lz4_cstream_init` builds it. -/
def modelC0 : CStream lz4ModelCodec :=
  { cctx := ()
    write_maxn := 64 * 1024
    header_written := false
    header := modelHeader }

theorem modelC0_init : xm_lz4_cstream_init lz4ModelCodec () = some modelC0 := rfl

/-- The model decompression stream as `xm_lz4_dstream_init` builds it. -/
def modelD0 : DStream lz4ModelCodec := xm_lz4_dstream_init lz4ModelCodec ()

/-- A codec whose block-compress primitive always reports failure: used to
exhibit that a codec failure and a caller contract violation surface as
the same `-1` result. -/
def failCodec : Codec where
  CCtx := Unit
  DCtx := Unit
  compressBegin _ := some ((), [])
  compressUpdate _ _ := none
  getFrameInfo _ _ := none
  decompress _ _ _ := none
  compressBegin_le := by
    intro c r h
    simp only [Option.some_inj] at h
    subst h
    simp
  decompress_out_le := by intro d cap src r h; simp at h
  decompress_consumed_le := by intro d cap src r h; simp at h

/-!
## Lemmas about `listWrite`
-/

theorem listWrite_length (arr data : List Byte) (pos : Nat)
    (h : pos + data.length ≤ arr.length) :
    (listWrite arr pos data).length = arr.length := by
  simp only [listWrite, List.length_append, List.length_take, List.length_drop]
  omega

theorem listWrite_take (arr data : List Byte) (pos : Nat)
    (h : pos ≤ arr.length) :
    (listWrite arr pos data).take (pos + data.length) = arr.take pos ++ data := by
  have hl : (arr.take pos).length = pos := by
    simp [List.length_take]; omega
  calc (listWrite arr pos data).take (pos + data.length)
      = (arr.take pos ++ (data ++ arr.drop (pos + data.length))).take
          ((arr.take pos).length + data.length) := by
        simp [listWrite, hl]
    _ = arr.take pos ++ (data ++ arr.drop (pos + data.length)).take data.length := by
        rw [List.take_append]
    _ = arr.take pos ++ data := by
        have : (data ++ arr.drop (pos + data.length)).take data.length = data := by
          simpa using List.take_left data (arr.drop (pos + data.length))
        rw [this]

theorem listWrite_zero_take (arr data : List Byte) :
    (listWrite arr 0 data).take data.length = data := by
  simpa [listWrite] using List.take_left data (arr.drop (0 + data.length))

/-- Accumulating into the zero-padded header scratch: writing the next
`new` bytes after `done` already-received bytes. -/
theorem listWrite_pad (done new : List Byte) (pad : Nat) :
    listWrite (done ++ List.replicate pad 0) done.length new
      = (done ++ new) ++ List.replicate (pad - new.length) 0 := by
  have ht : (done ++ List.replicate pad 0).take done.length = done := by
    simpa using List.take_left done (List.replicate pad (0 : Byte))
  have hd : (done ++ List.replicate pad 0).drop (done.length + new.length)
      = List.replicate (pad - new.length) 0 := by
    rw [List.drop_append]
    simp
  simp [listWrite, ht, hd]

/-!
## Path lemmas for the feed calls
-/

theorem cstream_compress_first (C : Codec) (s : CStream C) (idata : List Byte)
    (h0 : idata.length ≠ 0) (h1 : idata.length ≤ s.write_maxn)
    (h2 : s.header_written = false) :
    xm_lz4_cstream_compress C s idata
      = .ok { s with header_written := true } s.header := by
  simp [xm_lz4_cstream_compress, h0, h1, h2]

theorem cstream_compress_update (C : Codec) (s : CStream C) (idata : List Byte)
    (h0 : idata.length ≠ 0) (h1 : idata.length ≤ s.write_maxn)
    (h2 : s.header_written = true) {c : C.CCtx} {out : List Byte}
    (hu : C.compressUpdate s.cctx idata = some (c, out)) :
    xm_lz4_cstream_compress C s idata = .ok { s with cctx := c } out := by
  simp [xm_lz4_cstream_compress, h0, h1, h2, hu]

theorem blockPhase_empty (C : Codec) (s : DStream C) :
    dstream_blockPhase C s [] = .ok s [] := by
  simp [dstream_blockPhase]

theorem blockPhase_decompress (C : Codec) (s : DStream C) (rest : List Byte)
    (hh : s.header_size = HEADER_SIZE) (hr : rest.length ≠ 0)
    {arr : List Byte} (hb : s.buffer = some arr)
    (hfit : s.buffer_size + rest.length ≤ s.buffer_maxn)
    {d : C.DCtx} {out : List Byte} {consumed : Nat}
    (hdec : C.decompress s.dctx TB_STREAM_BLOCK_MAXN
        ((listWrite arr s.buffer_size rest).take (s.buffer_size + rest.length))
        = some (d, out, consumed)) :
    dstream_blockPhase C s rest =
      .ok { s with dctx := d
                   buffer := some (if consumed < s.buffer_size + rest.length
                     then listWrite (listWrite arr s.buffer_size rest) 0
                       (((listWrite arr s.buffer_size rest).take
                         (s.buffer_size + rest.length)).drop consumed)
                     else listWrite arr s.buffer_size rest)
                   buffer_size := s.buffer_size + rest.length - consumed } out := by
  simp [dstream_blockPhase, hh, hr, hb, hfit, hdec]

theorem blockPhase_overflow (C : Codec) (s : DStream C) (rest : List Byte)
    (hh : s.header_size = HEADER_SIZE) (hr : rest.length ≠ 0)
    {arr : List Byte} (hb : s.buffer = some arr)
    (hov : ¬ s.buffer_size + rest.length ≤ s.buffer_maxn) :
    dstream_blockPhase C s rest = .err s := by
  simp [dstream_blockPhase, hh, hr, hb, hov]

theorem dstream_feed_skipHeader (C : Codec) (s : DStream C) (idata : List Byte)
    (h0 : idata.length ≠ 0) (h1 : ¬ s.header_size < HEADER_SIZE) :
    xm_lz4_dstream_decompress C s idata = dstream_blockPhase C s idata := by
  simp [xm_lz4_dstream_decompress, h0, h1]

theorem dstream_feed_headerPartial (C : Codec) (s : DStream C) (idata : List Byte)
    (h0 : idata.length ≠ 0) (h1 : s.header_size + idata.length < HEADER_SIZE) :
    xm_lz4_dstream_decompress C s idata =
      .ok { s with header := listWrite s.header s.header_size idata
                   header_size := s.header_size + idata.length } [] := by
  have hlt : s.header_size < HEADER_SIZE := by omega
  have hmin : min (HEADER_SIZE - s.header_size) idata.length = idata.length := by
    omega
  have hne : ¬ s.header_size + idata.length = HEADER_SIZE := by omega
  simp [xm_lz4_dstream_decompress, h0, hlt, hmin, hne, List.take_length,
    List.drop_length, blockPhase_empty]

theorem dstream_feed_headerComplete (C : Codec) (s : DStream C) (idata : List Byte)
    (h0 : idata.length ≠ 0) (hlt : s.header_size < HEADER_SIZE)
    (hge : HEADER_SIZE ≤ s.header_size + idata.length)
    {d : C.DCtx} {id cons : Nat}
    (hinfo : C.getFrameInfo s.dctx
        (listWrite s.header s.header_size (idata.take (HEADER_SIZE - s.header_size)))
        = some (d, id, cons))
    {maxn : Nat} (hmaxn : blockMaxn id = some maxn) :
    xm_lz4_dstream_decompress C s idata =
      dstream_blockPhase C
        { s with header := listWrite s.header s.header_size
                   (idata.take (HEADER_SIZE - s.header_size))
                 header_size := HEADER_SIZE
                 dctx := d
                 buffer_maxn := maxn
                 buffer := some (List.replicate maxn 0) }
        (idata.drop (HEADER_SIZE - s.header_size)) := by
  have hmin : min (HEADER_SIZE - s.header_size) idata.length
      = HEADER_SIZE - s.header_size := by omega
  have hcomp : s.header_size + (HEADER_SIZE - s.header_size) = HEADER_SIZE := by
    omega
  simp [xm_lz4_dstream_decompress, h0, hlt, hmin, hcomp, hinfo, hmaxn]

theorem dstream_feed_headerInfoErr (C : Codec) (s : DStream C) (idata : List Byte)
    (h0 : idata.length ≠ 0) (hlt : s.header_size < HEADER_SIZE)
    (hge : HEADER_SIZE ≤ s.header_size + idata.length)
    (hinfo : C.getFrameInfo s.dctx
        (listWrite s.header s.header_size (idata.take (HEADER_SIZE - s.header_size)))
        = none) :
    xm_lz4_dstream_decompress C s idata =
      .err { s with header := listWrite s.header s.header_size
                      (idata.take (HEADER_SIZE - s.header_size))
                    header_size := HEADER_SIZE } := by
  have hmin : min (HEADER_SIZE - s.header_size) idata.length
      = HEADER_SIZE - s.header_size := by omega
  have hcomp : s.header_size + (HEADER_SIZE - s.header_size) = HEADER_SIZE := by
    omega
  simp [xm_lz4_dstream_decompress, h0, hlt, hmin, hcomp, hinfo]

theorem dstream_feed_headerBadClass (C : Codec) (s : DStream C) (idata : List Byte)
    (h0 : idata.length ≠ 0) (hlt : s.header_size < HEADER_SIZE)
    (hge : HEADER_SIZE ≤ s.header_size + idata.length)
    {d : C.DCtx} {id cons : Nat}
    (hinfo : C.getFrameInfo s.dctx
        (listWrite s.header s.header_size (idata.take (HEADER_SIZE - s.header_size)))
        = some (d, id, cons))
    (hmaxn : blockMaxn id = none) :
    xm_lz4_dstream_decompress C s idata =
      .err { s with header := listWrite s.header s.header_size
                      (idata.take (HEADER_SIZE - s.header_size))
                    header_size := HEADER_SIZE
                    dctx := d } := by
  have hmin : min (HEADER_SIZE - s.header_size) idata.length
      = HEADER_SIZE - s.header_size := by omega
  have hcomp : s.header_size + (HEADER_SIZE - s.header_size) = HEADER_SIZE := by
    omega
  simp [xm_lz4_dstream_decompress, h0, hlt, hmin, hcomp, hinfo, hmaxn]

/-!
## C10, C2, C5
-/

/-- C10: for every CompressionStream and every DecompressionStream, a feed
call with a zero-length chunk returns the error result `-1` rather than
the valid need-more-input result `(0, empty)` (the `tb_assert_and_check`
on `isize` at the top of both functions). -/
theorem C10_zero_chunk_is_error (C : Codec) (s : CStream C) (s2 : DStream C) :
    xm_lz4_cstream_compress C s [] = .err s ∧
    xm_lz4_dstream_decompress C s2 [] = .err s2 ∧
    (FeedResult.err s ≠ .ok s []) ∧ (FeedResult.err s2 ≠ .ok s2 []) := by
  refine ⟨?_, ?_, ?_, ?_⟩ <;>
    simp [xm_lz4_cstream_compress, xm_lz4_dstream_decompress]

/-- C2: the first feed call on a freshly constructed CompressionStream
returns exactly the pre-built `HEADER_SIZE`-byte header, sets
`header_written`, and produces no compressed bytes from the chunk (the
output is `s0.header`, independent of the chunk), for any chunk within
the size precondition. -/
theorem C2_first_feed_emits_header (C : Codec) (c0 : C.CCtx) (s0 : CStream C)
    (hinit : xm_lz4_cstream_init C c0 = some s0) (idata : List Byte)
    (h0 : 0 < idata.length) (h1 : idata.length ≤ s0.write_maxn) :
    xm_lz4_cstream_compress C s0 idata
      = .ok { s0 with header_written := true } s0.header ∧
    s0.header.length = HEADER_SIZE ∧ s0.header_written = false := by
  have hfeed := cstream_compress_first C s0 idata (by omega) h1
  cases hcb : C.compressBegin c0 with
  | none => rw [xm_lz4_cstream_init, hcb] at hinit; exact absurd hinit (by simp)
  | some r =>
    obtain ⟨c, hb⟩ := r
    have hble := C.compressBegin_le c0 (c, hb) hcb
    rw [xm_lz4_cstream_init, hcb] at hinit
    simp only [Option.some_inj] at hinit
    subst hinit
    refine ⟨hfeed rfl, ?_, rfl⟩
    simp only [List.length_append, List.length_replicate, HEADER_SIZE]
    simp only at hble
    omega

/-- Witness for C2 at the model codec with the chunk `[1, 2, 3]`. -/
theorem C2_first_feed_emits_header_witness :
    xm_lz4_cstream_compress lz4ModelCodec modelC0 [1, 2, 3]
      = .ok { modelC0 with header_written := true } modelC0.header ∧
    modelC0.header.length = HEADER_SIZE ∧ modelC0.header_written = false :=
  C2_first_feed_emits_header lz4ModelCodec () modelC0 modelC0_init [1, 2, 3]
    (by decide) (by decide)

/-- C5: in the DecodingBlocks phase, a feed call whose chunk would push
the buffered byte count past `inputBuffer.capacity` returns the error
result and produces no output; the stream object is left unchanged. -/
theorem C5_overflow_is_error (C : Codec) (s : DStream C) (idata arr : List Byte)
    (hh : s.header_size = HEADER_SIZE) (hb : s.buffer = some arr)
    (h0 : 0 < idata.length)
    (hov : s.buffer_maxn < s.buffer_size + idata.length) :
    xm_lz4_dstream_decompress C s idata = .err s := by
  rw [dstream_feed_skipHeader C s idata (by omega) (by omega)]
  exact blockPhase_overflow C s idata hh (by omega) hb (by omega)

/-- A DecodingBlocks-phase stream used to witness C5: header complete,
a 16-byte input buffer with 10 bytes already buffered. -/
def overflowDemoStream : DStream lz4ModelCodec :=
  { dctx := ()
    buffer := some (List.replicate 16 0)
    buffer_size := 10
    buffer_maxn := 16
    header_size := HEADER_SIZE
    header := modelHeader }

/-- Witness for C5: feeding 7 further bytes into `overflowDemoStream`
(10 + 7 > 16) yields the error result. -/
theorem C5_overflow_is_error_witness :
    xm_lz4_dstream_decompress lz4ModelCodec overflowDemoStream
      [1, 2, 3, 4, 5, 6, 7] = .err overflowDemoStream :=
  C5_overflow_is_error lz4ModelCodec overflowDemoStream [1, 2, 3, 4, 5, 6, 7]
    (List.replicate 16 0) rfl rfl (by decide) (by decide)

/-!
## C4
-/

/-- Once allocated, the input buffer survives the block phase with its
capacity intact: whatever branch `dstream_blockPhase` takes, the post
state still holds an array of length `buffer_maxn`. -/
theorem blockPhase_buffer_stable (C : Codec) (s2 : DStream C) (rest arr : List Byte)
    (hb : s2.buffer = some arr) (hlen : arr.length = s2.buffer_maxn)
    (hbs : s2.buffer_size ≤ s2.buffer_maxn) :
    ∃ arr2, (dstream_blockPhase C s2 rest).post.buffer = some arr2 ∧
      arr2.length = s2.buffer_maxn ∧
      (dstream_blockPhase C s2 rest).post.buffer_maxn = s2.buffer_maxn := by
  by_cases hcond : s2.header_size = HEADER_SIZE ∧ rest.length ≠ 0
  · by_cases hfit : s2.buffer_size + rest.length ≤ s2.buffer_maxn
    · have harr1 : (listWrite arr s2.buffer_size rest).length = s2.buffer_maxn := by
        rw [listWrite_length arr rest s2.buffer_size (by omega)]; exact hlen
      cases hdec : C.decompress s2.dctx TB_STREAM_BLOCK_MAXN
          ((listWrite arr s2.buffer_size rest).take
            (s2.buffer_size + rest.length)) with
      | none =>
        refine ⟨listWrite arr s2.buffer_size rest, ?_⟩
        simp [dstream_blockPhase, hcond, hb, hfit, hdec, FeedResult.post, harr1]
      | some t =>
        obtain ⟨d, out, consumed⟩ := t
        by_cases hlt : consumed < s2.buffer_size + rest.length
        · refine ⟨listWrite (listWrite arr s2.buffer_size rest) 0
            (((listWrite arr s2.buffer_size rest).take
              (s2.buffer_size + rest.length)).drop consumed), ?_⟩
          have hXlen : (((listWrite arr s2.buffer_size rest).take
              (s2.buffer_size + rest.length)).drop consumed).length
              ≤ (listWrite arr s2.buffer_size rest).length := by
            simp only [List.length_drop, List.length_take]
            omega
          have harr2 : (listWrite (listWrite arr s2.buffer_size rest) 0
              (((listWrite arr s2.buffer_size rest).take
                (s2.buffer_size + rest.length)).drop consumed)).length
              = s2.buffer_maxn := by
            rw [listWrite_length _ _ 0 (by omega)]; exact harr1
          simp [dstream_blockPhase, hcond, hb, hfit, hdec, hlt, FeedResult.post,
            harr2]
        · refine ⟨listWrite arr s2.buffer_size rest, ?_⟩
          simp [dstream_blockPhase, hcond, hb, hfit, hdec, hlt, FeedResult.post,
            harr1]
    · refine ⟨arr, ?_⟩
      simp [dstream_blockPhase, hcond, hb, hfit, FeedResult.post, hlen]
  · refine ⟨arr, ?_⟩
    unfold dstream_blockPhase
    rw [if_neg hcond]
    simp [FeedResult.post, hb, hlen]

/-- C4: when `headerBytesReceived` reaches `HEADER_SIZE`, the block-size
class from the parsed header is mapped through the fixed table
`{default/64KiB → 64*1024, 256KiB → 256*1024, 1MiB → 1*1024*1024,
4MiB → 4*1024*1024}` and the input buffer is allocated with exactly that
capacity; an unrecognized class yields the error result with the input
buffer left unallocated. -/
theorem C4_blockSize_table (C : Codec) (s : DStream C) (idata : List Byte)
    (h0 : 0 < idata.length) (hlt : s.header_size < HEADER_SIZE)
    (hge : HEADER_SIZE ≤ s.header_size + idata.length)
    (hbuf : s.buffer = none) (hbs : s.buffer_size = 0)
    {d : C.DCtx} {id cons : Nat}
    (hinfo : C.getFrameInfo s.dctx
        (listWrite s.header s.header_size (idata.take (HEADER_SIZE - s.header_size)))
        = some (d, id, cons)) :
    (∀ maxn, blockMaxn id = some maxn →
      ((id = LZ4F_default ∨ id = LZ4F_max64KB) → maxn = 64 * 1024) ∧
      (id = LZ4F_max256KB → maxn = 256 * 1024) ∧
      (id = LZ4F_max1MB → maxn = 1 * 1024 * 1024) ∧
      (id = LZ4F_max4MB → maxn = 4 * 1024 * 1024) ∧
      ∃ arr2, (xm_lz4_dstream_decompress C s idata).post.buffer = some arr2 ∧
        arr2.length = maxn ∧
        (xm_lz4_dstream_decompress C s idata).post.buffer_maxn = maxn) ∧
    (blockMaxn id = none →
      xm_lz4_dstream_decompress C s idata
        = .err { s with header := listWrite s.header s.header_size
                          (idata.take (HEADER_SIZE - s.header_size))
                        header_size := HEADER_SIZE
                        dctx := d } ∧
      (xm_lz4_dstream_decompress C s idata).post.buffer = none) := by
  constructor
  · intro maxn hmaxn
    refine ⟨?_, ?_, ?_, ?_, ?_⟩
    · rintro (h | h) <;> subst h <;>
        simp [blockMaxn, LZ4F_default, LZ4F_max64KB, LZ4F_max256KB, LZ4F_max1MB,
          LZ4F_max4MB] at hmaxn <;> omega
    · intro h; subst h
      simp [blockMaxn, LZ4F_default, LZ4F_max64KB, LZ4F_max256KB, LZ4F_max1MB,
        LZ4F_max4MB] at hmaxn
      omega
    · intro h; subst h
      simp [blockMaxn, LZ4F_default, LZ4F_max64KB, LZ4F_max256KB, LZ4F_max1MB,
        LZ4F_max4MB] at hmaxn
      omega
    · intro h; subst h
      simp [blockMaxn, LZ4F_default, LZ4F_max64KB, LZ4F_max256KB, LZ4F_max1MB,
        LZ4F_max4MB] at hmaxn
      omega
    · rw [dstream_feed_headerComplete C s idata (by omega) hlt hge hinfo hmaxn]
      exact blockPhase_buffer_stable C _ _ (List.replicate maxn 0) rfl
        (by simp) (by simp [hbs])
  · intro hmaxn
    have := dstream_feed_headerBadClass C s idata (by omega) hlt hge hinfo hmaxn
    rw [this]
    exact ⟨rfl, hbuf⟩

/-- Witness for C4 at the model codec: a fresh stream fed the 19 header
bytes announcing the 64KB class in one chunk. -/
theorem C4_blockSize_table_witness :
    (∀ maxn, blockMaxn (4 : Nat) = some maxn →
      (((4 : Nat) = LZ4F_default ∨ (4 : Nat) = LZ4F_max64KB) → maxn = 64 * 1024) ∧
      ((4 : Nat) = LZ4F_max256KB → maxn = 256 * 1024) ∧
      ((4 : Nat) = LZ4F_max1MB → maxn = 1 * 1024 * 1024) ∧
      ((4 : Nat) = LZ4F_max4MB → maxn = 4 * 1024 * 1024) ∧
      ∃ arr2, (xm_lz4_dstream_decompress lz4ModelCodec modelD0 modelHeader).post.buffer
          = some arr2 ∧
        arr2.length = maxn ∧
        (xm_lz4_dstream_decompress lz4ModelCodec modelD0 modelHeader).post.buffer_maxn
          = maxn) ∧
    (blockMaxn (4 : Nat) = none →
      xm_lz4_dstream_decompress lz4ModelCodec modelD0 modelHeader
        = .err { modelD0 with
                   header := listWrite modelD0.header modelD0.header_size
                     (modelHeader.take (HEADER_SIZE - modelD0.header_size))
                   header_size := HEADER_SIZE
                   dctx := () } ∧
      (xm_lz4_dstream_decompress lz4ModelCodec modelD0 modelHeader).post.buffer
        = none) :=
  C4_blockSize_table lz4ModelCodec modelD0 modelHeader (by decide) (by decide)
    (by decide) rfl rfl (by rfl)

/-!
## C9
-/

/-- C9: once `HEADER_SIZE` bytes have accumulated, exactly those bytes are
treated as header.  Whatever portion of them the header-parsing primitive
reports as not consumed (the theorem holds for every value of `cons`,
which appears in no conclusion) is discarded: the block-decompress
primitive receives exactly the chunk bytes beyond the first
`HEADER_SIZE`, and the bytes left buffered afterwards are exactly the
unconsumed part of those post-header bytes. -/
theorem C9_header_tail_discarded (C : Codec) (d0 : C.DCtx) (idata : List Byte)
    (hlen : HEADER_SIZE < idata.length)
    {d : C.DCtx} {id cons : Nat}
    (hinfo : C.getFrameInfo d0 (idata.take HEADER_SIZE) = some (d, id, cons))
    {maxn : Nat} (hmaxn : blockMaxn id = some maxn)
    (hfit : idata.length - HEADER_SIZE ≤ maxn)
    {d2 : C.DCtx} {out : List Byte} {c2 : Nat}
    (hdec : C.decompress d TB_STREAM_BLOCK_MAXN (idata.drop HEADER_SIZE)
      = some (d2, out, c2)) :
    ∃ s3, xm_lz4_dstream_decompress C (xm_lz4_dstream_init C d0) idata
        = .ok s3 out ∧
      s3.header = idata.take HEADER_SIZE ∧ s3.header_size = HEADER_SIZE ∧
      s3.buffer_size = idata.length - HEADER_SIZE - c2 ∧
      ∃ arr2, s3.buffer = some arr2 ∧
        arr2.take s3.buffer_size = (idata.drop HEADER_SIZE).drop c2 := by
  have htklen : (idata.take HEADER_SIZE).length = HEADER_SIZE := by
    simp only [List.length_take]
    omega
  have hassembled :
      listWrite (List.replicate LZ4F_HEADER_SIZE_MAX 0) 0 (idata.take HEADER_SIZE)
        = idata.take HEADER_SIZE := by
    have h := listWrite_pad [] (idata.take HEADER_SIZE) LZ4F_HEADER_SIZE_MAX
    simp only [List.nil_append, List.length_nil] at h
    rw [h, htklen]
    simp [HEADER_SIZE]
  have hlt0 : (xm_lz4_dstream_init C d0).header_size < HEADER_SIZE := by
    simp [xm_lz4_dstream_init, HEADER_SIZE, LZ4F_HEADER_SIZE_MAX]
  have hge0 : HEADER_SIZE ≤ (xm_lz4_dstream_init C d0).header_size + idata.length := by
    simp only [xm_lz4_dstream_init]
    omega
  have hinfo2 : C.getFrameInfo (xm_lz4_dstream_init C d0).dctx
      (listWrite (xm_lz4_dstream_init C d0).header
        (xm_lz4_dstream_init C d0).header_size
        (idata.take (HEADER_SIZE - (xm_lz4_dstream_init C d0).header_size)))
      = some (d, id, cons) := by
    simp only [xm_lz4_dstream_init, Nat.sub_zero]
    rw [hassembled]
    exact hinfo
  rw [dstream_feed_headerComplete C (xm_lz4_dstream_init C d0) idata (by omega)
    hlt0 hge0 hinfo2 hmaxn]
  simp only [xm_lz4_dstream_init, Nat.sub_zero]
  rw [hassembled]
  have hrl : (idata.drop HEADER_SIZE).length = idata.length - HEADER_SIZE := by
    simp
  have hsrc : (listWrite (List.replicate maxn 0) 0 (idata.drop HEADER_SIZE)).take
      (0 + (idata.drop HEADER_SIZE).length) = idata.drop HEADER_SIZE := by
    rw [Nat.zero_add]
    exact listWrite_zero_take _ _
  have hc2le : c2 ≤ (idata.drop HEADER_SIZE).length := by
    have := C.decompress_consumed_le _ _ _ _ hdec
    simpa using this
  rw [blockPhase_decompress C _ (idata.drop HEADER_SIZE) rfl
    (by rw [hrl]; omega) rfl (by rw [hrl]; simpa using hfit)
    (by rw [hsrc]; exact hdec)]
  dsimp only
  refine ⟨_, rfl, rfl, rfl, ?_, ?_⟩
  · simp [hrl]
  · by_cases hlt2 : c2 < 0 + (idata.drop HEADER_SIZE).length
    · refine ⟨listWrite (listWrite (List.replicate maxn 0) 0 (idata.drop HEADER_SIZE))
        0 ((idata.drop HEADER_SIZE).drop c2), ?_, ?_⟩
      · dsimp only
        rw [if_pos hlt2, hsrc]
      · dsimp only
        have hXlen : ((idata.drop HEADER_SIZE).drop c2).length
            = (idata.drop HEADER_SIZE).length - c2 := by
          simp only [List.length_drop]
        have h := listWrite_zero_take
          (listWrite (List.replicate maxn 0) 0 (idata.drop HEADER_SIZE))
          ((idata.drop HEADER_SIZE).drop c2)
        rw [hXlen] at h
        rw [show (0 + (idata.drop HEADER_SIZE).length - c2)
          = (idata.drop HEADER_SIZE).length - c2 by omega]
        exact h
    · refine ⟨listWrite (List.replicate maxn 0) 0 (idata.drop HEADER_SIZE), ?_, ?_⟩
      · dsimp only
        rw [if_neg hlt2]
      · dsimp only
        have hc2eq : c2 = (idata.drop HEADER_SIZE).length := by omega
        rw [show (0 + (idata.drop HEADER_SIZE).length - c2) = 0 by omega]
        rw [List.take_zero, hc2eq]
        simp only [List.drop_length]

/-- Witness for C9 at the model codec: 19 header bytes followed by one
6-byte block of payload `[7, 7]`, fed in a single 25-byte chunk; the
header parser reports 7 of the 19 bytes consumed, and the 12 unconsumed
header bytes never reach the input buffer. -/
theorem C9_header_tail_discarded_witness :
    ∃ s3, xm_lz4_dstream_decompress lz4ModelCodec
        (xm_lz4_dstream_init lz4ModelCodec ()) (modelHeader ++ encodeBlock [7, 7])
        = .ok s3 [7, 7] ∧
      s3.header = (modelHeader ++ encodeBlock [7, 7]).take HEADER_SIZE ∧
      s3.header_size = HEADER_SIZE ∧
      s3.buffer_size = (modelHeader ++ encodeBlock [7, 7]).length - HEADER_SIZE - 6 ∧
      ∃ arr2, s3.buffer = some arr2 ∧
        arr2.take s3.buffer_size
          = ((modelHeader ++ encodeBlock [7, 7]).drop HEADER_SIZE).drop 6 :=
  C9_header_tail_discarded lz4ModelCodec () (modelHeader ++ encodeBlock [7, 7])
    (by decide) rfl rfl (by decide) rfl

/-!
## C8
-/

/-- A compression stream over `failCodec` that has already emitted its
header, with a `write_maxn` of 2 so that the oversized-chunk check can be
exercised with a 3-byte chunk.  On this single state, an oversized chunk
and a codec failure produce the very same error value. -/
def failC1 : CStream failCodec :=
  { cctx := ()
    write_maxn := 2
    header_written := true
    header := List.replicate LZ4F_HEADER_SIZE_MAX 0 }

/-- Counterexample to C8: the returned error value does NOT identify the
error kind.  An oversized chunk (a caller contract violation), a failure
of the codec's compress primitive (a codec error), and a buffer overflow
on the decompression stream all return the very same value `-1`; in
particular the first two happen on the same stream state and are
indistinguishable to the caller. -/
theorem C8_counterexample_single_error_value :
    (xm_lz4_cstream_compress failCodec failC1 [1, 2, 3]).retval = -1 ∧
    (xm_lz4_cstream_compress failCodec failC1 [1]).retval = -1 ∧
    (xm_lz4_dstream_decompress lz4ModelCodec overflowDemoStream
      [1, 2, 3, 4, 5, 6, 7]).retval = -1 ∧
    (xm_lz4_cstream_compress failCodec failC1 [1, 2, 3]).retval
      = (xm_lz4_cstream_compress failCodec failC1 [1]).retval := by
  exact ⟨rfl, rfl, rfl, rfl⟩

/-- C8 amended: every per-feed failure — oversized chunk, codec error on
compress, buffer overflow on decompress, codec error on decompress — is
reported through one and the same error value `-1`; the error kinds are
not distinguishable from the returned value (only success versus failure
is). -/
theorem C8_amended_one_error_value (C : Codec) :
    (∀ (s : CStream C) (idata : List Byte), 0 < idata.length →
       s.write_maxn < idata.length →
       (xm_lz4_cstream_compress C s idata).retval = -1) ∧
    (∀ (s : CStream C) (idata : List Byte), 0 < idata.length →
       idata.length ≤ s.write_maxn → s.header_written = true →
       C.compressUpdate s.cctx idata = none →
       (xm_lz4_cstream_compress C s idata).retval = -1) ∧
    (∀ (s2 : DStream C) (jdata arr : List Byte), s2.header_size = HEADER_SIZE →
       s2.buffer = some arr → 0 < jdata.length →
       s2.buffer_maxn < s2.buffer_size + jdata.length →
       (xm_lz4_dstream_decompress C s2 jdata).retval = -1) ∧
    (∀ (s2 : DStream C) (jdata arr : List Byte), s2.header_size = HEADER_SIZE →
       s2.buffer = some arr → 0 < jdata.length →
       s2.buffer_size + jdata.length ≤ s2.buffer_maxn →
       C.decompress s2.dctx TB_STREAM_BLOCK_MAXN
         ((listWrite arr s2.buffer_size jdata).take
           (s2.buffer_size + jdata.length)) = none →
       (xm_lz4_dstream_decompress C s2 jdata).retval = -1) := by
  refine ⟨?_, ?_, ?_, ?_⟩
  · intro s idata h0 hov
    simp [xm_lz4_cstream_compress, FeedResult.retval, show idata.length ≠ 0 by omega,
      show ¬ idata.length ≤ s.write_maxn by omega]
  · intro s idata h0 hle hw hcu
    simp [xm_lz4_cstream_compress, FeedResult.retval, show idata.length ≠ 0 by omega,
      hle, hw, hcu]
  · intro s2 jdata arr hh hb h0 hov
    rw [dstream_feed_skipHeader C s2 jdata (by omega) (by omega),
      blockPhase_overflow C s2 jdata hh (by omega) hb (by omega)]
    rfl
  · intro s2 jdata arr hh hb h0 hfit hdec
    rw [dstream_feed_skipHeader C s2 jdata (by omega) (by omega)]
    unfold dstream_blockPhase
    rw [if_pos ⟨hh, by omega⟩, hb]
    simp only [if_pos hfit, hdec]
    rfl

/-- Witness for the amended C8: the failure kinds exercised on concrete
streams and chunks, all returning `-1`. -/
theorem C8_amended_one_error_value_witness :
    (xm_lz4_cstream_compress failCodec failC1 [1, 2, 3]).retval = -1 ∧
    (xm_lz4_cstream_compress failCodec failC1 [1]).retval = -1 ∧
    (xm_lz4_dstream_decompress lz4ModelCodec overflowDemoStream
      [1, 2, 3, 4, 5, 6, 7]).retval = -1 :=
  ⟨(C8_amended_one_error_value failCodec).1 failC1 [1, 2, 3]
      (by decide) (by decide),
   (C8_amended_one_error_value failCodec).2.1 failC1 [1] (by decide)
      (by decide) rfl rfl,
   (C8_amended_one_error_value lz4ModelCodec).2.2.1 overflowDemoStream
      [1, 2, 3, 4, 5, 6, 7] (List.replicate 16 0) rfl rfl (by decide) (by decide)⟩

/-!
## C6
-/

/-- Well-formedness of a decompression stream state, as established by
`xm_lz4_dstream_init` and preserved by every feed call: the header
scratch has its fixed size, at most `HEADER_SIZE` header bytes are
accounted, the input buffer exists only once the header is complete,
an absent buffer holds no bytes, an allocated buffer has exactly
`buffer_maxn` cells, and the buffered byte count never exceeds the
capacity. -/
def DStreamWF {C : Codec} (s : DStream C) : Prop :=
  s.header.length = LZ4F_HEADER_SIZE_MAX ∧
  s.header_size ≤ HEADER_SIZE ∧
  (s.header_size < HEADER_SIZE → s.buffer = none) ∧
  (s.buffer = none → s.buffer_size = 0) ∧
  (∀ arr, s.buffer = some arr → arr.length = s.buffer_maxn) ∧
  s.buffer_size ≤ s.buffer_maxn

/-- Introduction rule for `DStreamWF` on a literal record, keeping the
component goals in reduced form. -/
theorem DStreamWF_mk {C : Codec} (dctx : C.DCtx) (buffer : Option (List Byte))
    (bs maxn hs : Nat) (hdr : List Byte)
    (h1 : hdr.length = LZ4F_HEADER_SIZE_MAX) (h2 : hs ≤ HEADER_SIZE)
    (h3 : hs < HEADER_SIZE → buffer = none)
    (h4 : buffer = none → bs = 0)
    (h5 : ∀ arr, buffer = some arr → arr.length = maxn)
    (h6 : bs ≤ maxn) :
    DStreamWF (⟨dctx, buffer, bs, maxn, hs, hdr⟩ : DStream C) :=
  ⟨h1, h2, h3, h4, h5, h6⟩

theorem blockPhase_WF (C : Codec) (s2 : DStream C) (rest : List Byte)
    (hwf : DStreamWF s2) : DStreamWF (dstream_blockPhase C s2 rest).post := by
  obtain ⟨hw1, hw2, hw3, hw4, hw5, hw6⟩ := hwf
  by_cases hcond : s2.header_size = HEADER_SIZE ∧ rest.length ≠ 0
  · cases hb : s2.buffer with
    | none =>
      unfold dstream_blockPhase
      rw [if_pos hcond, hb]
      exact ⟨hw1, hw2, hw3, hw4, hw5, hw6⟩
    | some arr =>
      have harrlen : arr.length = s2.buffer_maxn := hw5 arr hb
      by_cases hfit : s2.buffer_size + rest.length ≤ s2.buffer_maxn
      · have harr1 : (listWrite arr s2.buffer_size rest).length = s2.buffer_maxn := by
          rw [listWrite_length arr rest s2.buffer_size (by omega)]
          exact harrlen
        cases hdec : C.decompress s2.dctx TB_STREAM_BLOCK_MAXN
            ((listWrite arr s2.buffer_size rest).take
              (s2.buffer_size + rest.length)) with
        | none =>
          unfold dstream_blockPhase
          rw [if_pos hcond, hb]
          dsimp only
          rw [if_pos hfit]
          simp only [hdec, FeedResult.post]
          refine DStreamWF_mk _ _ _ _ _ _ hw1 hw2 ?_ ?_ ?_ hfit
          · intro h
            exact absurd hcond.1 (by omega)
          · intro h
            exact Option.noConfusion h
          · intro a ha
            simp only [Option.some_inj] at ha
            rw [← ha]
            exact harr1
        | some t =>
          obtain ⟨d, out, consumed⟩ := t
          unfold dstream_blockPhase
          rw [if_pos hcond, hb]
          dsimp only
          rw [if_pos hfit]
          simp only [hdec, FeedResult.post]
          refine DStreamWF_mk _ _ _ _ _ _ hw1 hw2 ?_ ?_ ?_ (by omega)
          · intro h
            exact absurd hcond.1 (by omega)
          · intro h
            exact Option.noConfusion h
          · intro a ha
            simp only [Option.some_inj] at ha
            rw [← ha]
            by_cases hlt : consumed < s2.buffer_size + rest.length
            · rw [if_pos hlt]
              rw [listWrite_length _ _ 0 (by
                simp only [List.length_drop, List.length_take]
                omega)]
              exact harr1
            · rw [if_neg hlt]
              exact harr1
      · unfold dstream_blockPhase
        rw [if_pos hcond, hb]
        dsimp only
        rw [if_neg hfit]
        exact ⟨hw1, hw2, hw3, hw4, hw5, hw6⟩
  · unfold dstream_blockPhase
    rw [if_neg hcond]
    exact ⟨hw1, hw2, hw3, hw4, hw5, hw6⟩

theorem dstream_feed_WF (C : Codec) (s : DStream C) (idata : List Byte)
    (hwf : DStreamWF s) :
    DStreamWF (xm_lz4_dstream_decompress C s idata).post := by
  obtain ⟨hw1, hw2, hw3, hw4, hw5, hw6⟩ := hwf
  by_cases h0 : idata.length = 0
  · unfold xm_lz4_dstream_decompress
    rw [if_pos h0]
    exact ⟨hw1, hw2, hw3, hw4, hw5, hw6⟩
  · by_cases hlt : s.header_size < HEADER_SIZE
    · have hbnone : s.buffer = none := hw3 hlt
      have hbs0 : s.buffer_size = 0 := hw4 hbnone
      by_cases hcomp : s.header_size + idata.length < HEADER_SIZE
      · rw [dstream_feed_headerPartial C s idata h0 hcomp]
        simp only [FeedResult.post]
        refine DStreamWF_mk _ _ _ _ _ _ ?_ (by omega) (fun _ => hbnone)
          (fun _ => hbs0) hw5 hw6
        rw [listWrite_length s.header idata s.header_size (by
          rw [hw1]
          simp only [HEADER_SIZE, LZ4F_HEADER_SIZE_MAX] at hcomp ⊢
          omega)]
        exact hw1
      · have hge : HEADER_SIZE ≤ s.header_size + idata.length := by omega
        have hhl : (listWrite s.header s.header_size
            (idata.take (HEADER_SIZE - s.header_size))).length
            = LZ4F_HEADER_SIZE_MAX := by
          rw [listWrite_length s.header _ s.header_size (by
            simp only [List.length_take, hw1]
            simp only [HEADER_SIZE, LZ4F_HEADER_SIZE_MAX] at hlt ⊢
            omega)]
          exact hw1
        cases hinfo : C.getFrameInfo s.dctx
            (listWrite s.header s.header_size
              (idata.take (HEADER_SIZE - s.header_size))) with
        | none =>
          rw [dstream_feed_headerInfoErr C s idata h0 hlt hge hinfo]
          simp only [FeedResult.post]
          exact DStreamWF_mk _ _ _ _ _ _ hhl (le_refl _)
            (fun h => (Nat.lt_irrefl _ h).elim) (fun _ => hbs0) hw5 hw6
        | some t =>
          obtain ⟨d, id, cons⟩ := t
          cases hmaxn : blockMaxn id with
          | none =>
            rw [dstream_feed_headerBadClass C s idata h0 hlt hge hinfo hmaxn]
            simp only [FeedResult.post]
            exact DStreamWF_mk _ _ _ _ _ _ hhl (le_refl _)
              (fun h => (Nat.lt_irrefl _ h).elim) (fun _ => hbs0) hw5 hw6
          | some maxn =>
            rw [dstream_feed_headerComplete C s idata h0 hlt hge hinfo hmaxn]
            refine blockPhase_WF C _ _
              (DStreamWF_mk _ _ _ _ _ _ hhl (le_refl _)
                (fun h => (Nat.lt_irrefl _ h).elim)
                (fun h => Option.noConfusion h) ?_ (by rw [hbs0]; omega))
            intro a ha
            simp only [Option.some_inj] at ha
            rw [← ha]
            simp
    · rw [dstream_feed_skipHeader C s idata h0 hlt]
      exact blockPhase_WF C s idata ⟨hw1, hw2, hw3, hw4, hw5, hw6⟩

/-- C6: the invariant `inputBytesBuffered ≤ inputBuffer.capacity` holds of
the freshly initialised stream and is preserved by every feed call
(success or error); and after each decode step the bytes beyond the
consumed count are moved to the start of `inputBuffer` with no gaps and
in their original order (the retained prefix equals the appended buffer
contents with the consumed prefix dropped), with `inputBytesBuffered`
decremented by exactly the consumed count. -/
theorem C6_buffer_invariants (C : Codec) (d0 : C.DCtx) (s : DStream C)
    (idata : List Byte) (hwf : DStreamWF s) :
    DStreamWF (xm_lz4_dstream_init C d0) ∧
    DStreamWF (xm_lz4_dstream_decompress C s idata).post ∧
    (xm_lz4_dstream_decompress C s idata).post.buffer_size
      ≤ (xm_lz4_dstream_decompress C s idata).post.buffer_maxn ∧
    (∀ (arr : List Byte) (d : C.DCtx) (out : List Byte) (c : Nat),
       s.header_size = HEADER_SIZE → s.buffer = some arr → 0 < idata.length →
       s.buffer_size + idata.length ≤ s.buffer_maxn →
       C.decompress s.dctx TB_STREAM_BLOCK_MAXN (arr.take s.buffer_size ++ idata)
         = some (d, out, c) →
       ∃ arr2, xm_lz4_dstream_decompress C s idata
           = .ok { s with dctx := d
                          buffer := some arr2
                          buffer_size := s.buffer_size + idata.length - c } out ∧
         arr2.take (s.buffer_size + idata.length - c)
           = (arr.take s.buffer_size ++ idata).drop c) := by
  refine ⟨?_, dstream_feed_WF C s idata hwf, (dstream_feed_WF C s idata hwf).2.2.2.2.2,
    ?_⟩
  · refine DStreamWF_mk _ _ _ _ _ _ (by simp) (by simp [HEADER_SIZE]) (fun _ => rfl)
      (fun _ => rfl) (fun a h => Option.noConfusion h) (le_refl 0)
  · intro arr d out c hh hb h0 hfit hdec
    obtain ⟨hw1, hw2, hw3, hw4, hw5, hw6⟩ := hwf
    have harrlen : arr.length = s.buffer_maxn := hw5 arr hb
    have hsrc : (listWrite arr s.buffer_size idata).take
        (s.buffer_size + idata.length) = arr.take s.buffer_size ++ idata :=
      listWrite_take arr idata s.buffer_size (by omega)
    have hsrclen : (arr.take s.buffer_size ++ idata).length
        = s.buffer_size + idata.length := by
      simp only [List.length_append, List.length_take]
      omega
    have hcle : c ≤ s.buffer_size + idata.length := by
      have h2 : c ≤ (arr.take s.buffer_size ++ idata).length :=
        C.decompress_consumed_le _ _ _ _ hdec
      omega
    rw [dstream_feed_skipHeader C s idata (by omega) (by omega)]
    rw [blockPhase_decompress C s idata hh (by omega) hb hfit
      (by rw [hsrc]; exact hdec)]
    refine ⟨_, rfl, ?_⟩
    by_cases hlt : c < s.buffer_size + idata.length
    · rw [if_pos hlt, hsrc]
      have h := listWrite_zero_take (listWrite arr s.buffer_size idata)
        ((arr.take s.buffer_size ++ idata).drop c)
      have hXlen : ((arr.take s.buffer_size ++ idata).drop c).length
          = s.buffer_size + idata.length - c := by
        simp only [List.length_drop, hsrclen]
      rw [hXlen] at h
      exact h
    · rw [if_neg hlt]
      have hceq : c = s.buffer_size + idata.length := by omega
      rw [hceq, Nat.sub_self, List.take_zero]
      rw [← hsrclen, List.drop_length]

/-- A DecodingBlocks-phase model stream with an empty 16-byte input
buffer, used to witness C6. -/
def decodeDemoStream : DStream lz4ModelCodec :=
  { dctx := ()
    buffer := some (List.replicate 16 0)
    buffer_size := 0
    buffer_maxn := 16
    header_size := HEADER_SIZE
    header := modelHeader }

/-- Witness for C6: feeding the single 5-byte block `encodeBlock [9]` into
`decodeDemoStream` decodes it entirely; the compaction clause is
exercised with consumed count 5. -/
theorem C6_buffer_invariants_witness :
    ∃ arr2, xm_lz4_dstream_decompress lz4ModelCodec decodeDemoStream
        [1, 0, 0, 0, 9]
        = .ok { decodeDemoStream with
                  dctx := ()
                  buffer := some arr2
                  buffer_size := decodeDemoStream.buffer_size + 5 - 5 } [9] ∧
      arr2.take (decodeDemoStream.buffer_size + 5 - 5)
        = ((List.replicate 16 0).take decodeDemoStream.buffer_size
            ++ [1, 0, 0, 0, 9]).drop 5 :=
by
  have hwf : DStreamWF decodeDemoStream := by
    refine ⟨rfl, by decide, fun h => absurd h (by decide),
      fun h => Option.noConfusion h, ?_, by decide⟩
    intro a ha
    simp only [decodeDemoStream, Option.some_inj] at ha
    rw [← ha]
    decide
  exact (C6_buffer_invariants lz4ModelCodec () decodeDemoStream [1, 0, 0, 0, 9]
      hwf).2.2.2
    (List.replicate 16 0) () [9] 5 rfl rfl (by decide) (by decide) rfl

/-!
## C3
-/

/-- Split a byte list into 1-byte chunks. -/
def oneByteChunks (l : List Byte) : List (List Byte) :=
  l.map fun b => [b]

/-- Running a concatenation of call sequences composes the runs. -/
theorem dstream_run_append (C : Codec) (s : DStream C) (xs ys : List (List Byte)) :
    dstream_run C s (xs ++ ys)
      = match dstream_run C s xs with
        | none => none
        | some (s1, outs) =>
          match dstream_run C s1 ys with
          | none => none
          | some (s2, outs2) => some (s2, outs ++ outs2) := by
  induction xs generalizing s with
  | nil =>
    simp only [List.nil_append, dstream_run]
    cases h : dstream_run C s ys with
    | none => rfl
    | some t => obtain ⟨s2, o2⟩ := t; rfl
  | cons x xs ih =>
    cases hf : xm_lz4_dstream_decompress C s x with
    | err s1 => simp only [List.cons_append, dstream_run, List.append_eq, hf]
    | ok s1 out =>
      simp only [List.cons_append, dstream_run, List.append_eq, hf]
      rw [ih s1]
      cases h1 : dstream_run C s1 xs with
      | none => simp
      | some t =>
        obtain ⟨s2, outs⟩ := t
        cases h2 : dstream_run C s2 ys with
        | none => simp [h2]
        | some t2 =>
          obtain ⟨s3, o3⟩ := t2
          simp [h2]

/-- `take (i+1)` written as `take i` plus the i-th element. -/
theorem take_succ_getElem (l : List Byte) (i : Nat) (h : i < l.length) :
    l.take (i + 1) = l.take i ++ [l[i]] := by
  rw [List.take_succ, List.getElem?_eq_getElem h]
  rfl

/-- The AwaitingHeader state after `i` of the `HEADER_SIZE` header bytes
have been received one at a time. -/
def headerPartialState (C : Codec) (d0 : C.DCtx) (hbytes : List Byte) (i : Nat) :
    DStream C :=
  { xm_lz4_dstream_init C d0 with
      header := hbytes.take i ++ List.replicate (LZ4F_HEADER_SIZE_MAX - i) 0
      header_size := i }

/-- Feeding the first `i < HEADER_SIZE` header bytes as 1-byte chunks
yields `(0, empty)` on every call and leaves the stream awaiting the
header. -/
theorem dstream_run_header_lead (C : Codec) (d0 : C.DCtx) (hbytes : List Byte)
    (hlen : hbytes.length = HEADER_SIZE) (i : Nat) (hi : i < HEADER_SIZE) :
    dstream_run C (xm_lz4_dstream_init C d0) ((oneByteChunks hbytes).take i)
      = some (headerPartialState C d0 hbytes i, List.replicate i []) := by
  induction i with
  | zero =>
    simp only [List.take_zero, dstream_run, List.replicate]
    rfl
  | succ i ih =>
    have hi' : i < HEADER_SIZE := by omega
    have hilen : i < hbytes.length := by omega
    have htake : (oneByteChunks hbytes).take (i + 1)
        = (oneByteChunks hbytes).take i ++ [[hbytes[i]]] := by
      rw [List.take_succ]
      congr 1
      have : (oneByteChunks hbytes)[i]? = some [hbytes[i]] := by
        unfold oneByteChunks
        rw [List.getElem?_map, List.getElem?_eq_getElem hilen]
        rfl
      rw [this]
      rfl
    rw [htake, dstream_run_append, ih hi']
    have htl : (hbytes.take i).length = i := by
      simp only [List.length_take]
      omega
    have hstep : xm_lz4_dstream_decompress C (headerPartialState C d0 hbytes i)
        [hbytes[i]]
        = .ok (headerPartialState C d0 hbytes (i + 1)) [] := by
      have hfeed := dstream_feed_headerPartial C
        (headerPartialState C d0 hbytes i) [hbytes[i]]
        (by simp) hi
      rw [hfeed]
      congr 1
      have hpad := listWrite_pad (hbytes.take i) [hbytes[i]]
        (LZ4F_HEADER_SIZE_MAX - i)
      rw [htl] at hpad
      simp only [headerPartialState, xm_lz4_dstream_init, DStream.mk.injEq]
      refine ⟨trivial, trivial, trivial, trivial, by simp, ?_⟩
      rw [hpad, take_succ_getElem hbytes i hilen]
      simp only [List.length_singleton]
      rw [show LZ4F_HEADER_SIZE_MAX - i - 1 = LZ4F_HEADER_SIZE_MAX - (i + 1)
        by omega]
    simp only [dstream_run, hstep]
    rw [List.replicate_succ']

/-- C3: feeding the frame header one byte at a time across `HEADER_SIZE`
separate 1-byte feed calls yields `(0, empty)` for every call, the
stream stays in the AwaitingHeader state (no input buffer allocated)
before the last call, and on the last call — exactly when
`headerBytesReceived` reaches `HEADER_SIZE` — it transitions to
DecodingBlocks, with the input buffer allocated. -/
theorem C3_header_atomicity (C : Codec) (d0 : C.DCtx) (hbytes : List Byte)
    (hlen : hbytes.length = HEADER_SIZE)
    {d : C.DCtx} {id cons : Nat}
    (hinfo : C.getFrameInfo d0 hbytes = some (d, id, cons))
    {maxn : Nat} (hmaxn : blockMaxn id = some maxn) :
    (∀ i, i < HEADER_SIZE →
      dstream_run C (xm_lz4_dstream_init C d0) ((oneByteChunks hbytes).take i)
        = some (headerPartialState C d0 hbytes i, List.replicate i []) ∧
      (headerPartialState C d0 hbytes i).buffer = none ∧
      (headerPartialState C d0 hbytes i).header_size = i) ∧
    dstream_run C (xm_lz4_dstream_init C d0) (oneByteChunks hbytes)
      = some ({ xm_lz4_dstream_init C d0 with
                  header := hbytes
                  header_size := HEADER_SIZE
                  dctx := d
                  buffer_maxn := maxn
                  buffer := some (List.replicate maxn 0) },
              List.replicate HEADER_SIZE []) := by
  constructor
  · intro i hi
    exact ⟨dstream_run_header_lead C d0 hbytes hlen i hi, rfl, rfl⟩
  · have h18 : (18 : Nat) < HEADER_SIZE := by
      simp [HEADER_SIZE, LZ4F_HEADER_SIZE_MAX]
    have h18len : (18 : Nat) < hbytes.length := by omega
    have htl18 : (hbytes.take 18).length = 18 := by
      simp only [List.length_take]
      omega
    have hb19 : hbytes.take 18 ++ [hbytes[18]] = hbytes := by
      rw [← take_succ_getElem hbytes 18 h18len]
      have h19 : (18 : Nat) + 1 = hbytes.length := by
        rw [hlen]
        rfl
      rw [h19, List.take_length]
    have hsplit : oneByteChunks hbytes
        = (oneByteChunks hbytes).take 18 ++ [[hbytes[18]]] := by
      conv_lhs => rw [← hb19]
      unfold oneByteChunks
      rw [List.map_append, List.map_take]
      rfl
    have hassembled : listWrite
        (hbytes.take 18 ++ List.replicate (LZ4F_HEADER_SIZE_MAX - 18) 0) 18
        [hbytes[18]] = hbytes := by
      have hpad := listWrite_pad (hbytes.take 18) [hbytes[18]]
        (LZ4F_HEADER_SIZE_MAX - 18)
      rw [htl18] at hpad
      rw [hpad]
      rw [show LZ4F_HEADER_SIZE_MAX - 18 - ([hbytes[18]] : List Byte).length = 0
        from rfl]
      simp only [List.replicate_zero, List.append_nil]
      exact hb19
    have hstep := dstream_feed_headerComplete C
      (headerPartialState C d0 hbytes 18) [hbytes[18]]
      (by simp) h18 (le_refl HEADER_SIZE)
      (show C.getFrameInfo d0
          (listWrite (hbytes.take 18
            ++ List.replicate (LZ4F_HEADER_SIZE_MAX - 18) 0) 18 [hbytes[18]])
          = some (d, id, cons) by
        rw [hassembled]
        exact hinfo)
      hmaxn
    have hcall : xm_lz4_dstream_decompress C (headerPartialState C d0 hbytes 18)
        [hbytes[18]]
        = .ok { xm_lz4_dstream_init C d0 with
                  header := hbytes
                  header_size := HEADER_SIZE
                  dctx := d
                  buffer_maxn := maxn
                  buffer := some (List.replicate maxn 0) } [] := by
      rw [hstep]
      show dstream_blockPhase C
        { dctx := d
          buffer := some (List.replicate maxn 0)
          buffer_size := 0
          buffer_maxn := maxn
          header_size := HEADER_SIZE
          header := listWrite (hbytes.take 18
            ++ List.replicate (LZ4F_HEADER_SIZE_MAX - 18) 0) 18 [hbytes[18]] }
        [] = _
      rw [blockPhase_empty]
      congr 1
      simp only [xm_lz4_dstream_init, DStream.mk.injEq]
      refine ⟨trivial, trivial, trivial, trivial, trivial, ?_⟩
      exact hassembled
    rw [hsplit, dstream_run_append,
      dstream_run_header_lead C d0 hbytes hlen 18 h18]
    simp only [dstream_run, hcall]
    rfl

/-- Witness for C3 at the model codec: the 19-byte model header fed one
byte at a time. -/
theorem C3_header_atomicity_witness :
    (∀ i, i < HEADER_SIZE →
      dstream_run lz4ModelCodec (xm_lz4_dstream_init lz4ModelCodec ())
        ((oneByteChunks modelHeader).take i)
        = some (headerPartialState lz4ModelCodec () modelHeader i,
            List.replicate i []) ∧
      (headerPartialState lz4ModelCodec () modelHeader i).buffer = none ∧
      (headerPartialState lz4ModelCodec () modelHeader i).header_size = i) ∧
    dstream_run lz4ModelCodec (xm_lz4_dstream_init lz4ModelCodec ())
      (oneByteChunks modelHeader)
      = some ({ xm_lz4_dstream_init lz4ModelCodec () with
                  header := modelHeader
                  header_size := HEADER_SIZE
                  dctx := ()
                  buffer_maxn := 64 * 1024
                  buffer := some (List.replicate (64 * 1024) 0) },
              List.replicate HEADER_SIZE []) :=
  C3_header_atomicity lz4ModelCodec () modelHeader (by decide) rfl rfl

/-!
## The model codec's block stream: decode specification

These lemmas characterise `decodeBlocks` on an arbitrary prefix of an
encoded block stream, in terms of the reference function `consumeBlocks`
that walks whole blocks.
-/

/-- The concatenated block encoding of a list of payload chunks. -/
def encodeStream (ps : List (List Byte)) : List Byte :=
  (ps.map encodeBlock).flatten

@[simp] theorem encodeStream_nil : encodeStream [] = [] := rfl

@[simp] theorem encodeStream_cons (p : List Byte) (ps : List (List Byte)) :
    encodeStream (p :: ps) = encodeBlock p ++ encodeStream ps := rfl

@[simp] theorem encodeBlock_length (p : List Byte) :
    (encodeBlock p).length = 4 + p.length := by
  simp [encodeBlock, lenBytes]
  omega

/-- Reference greedy walk over whole blocks: from a byte budget `w`,
returns the concatenated payloads of the blocks wholly within `w`, the
remaining payload list, and the leftover byte count into it. -/
def consumeBlocks : List (List Byte) → Nat → List Byte × List (List Byte) × Nat
  | [], w => ([], [], w)
  | p :: ps, w =>
    if 4 + p.length ≤ w then
      let r := consumeBlocks ps (w - (4 + p.length))
      (p ++ r.1, r.2.1, r.2.2)
    else ([], p :: ps, w)

@[simp] theorem consumeBlocks_zero (ps : List (List Byte)) :
    consumeBlocks ps 0 = ([], ps, 0) := by
  cases ps with
  | nil => rfl
  | cons p ps => simp [consumeBlocks]

theorem consumeBlocks_le (ps : List (List Byte)) (w : Nat) :
    (consumeBlocks ps w).2.2 ≤ w := by
  induction ps generalizing w with
  | nil => simp [consumeBlocks]
  | cons p ps ih =>
    simp only [consumeBlocks]
    split
    · rename_i h
      have h2 := ih (w - (4 + p.length))
      show (consumeBlocks ps (w - (4 + p.length))).2.2 ≤ w
      omega
    · simp

theorem consumeBlocks_suffix (ps : List (List Byte)) (w : Nat) :
    (consumeBlocks ps w).2.1 <:+ ps := by
  induction ps generalizing w with
  | nil => simp [consumeBlocks]
  | cons p ps ih =>
    simp only [consumeBlocks]
    split
    · exact (ih (w - (4 + p.length))).trans (List.suffix_cons p ps)
    · exact List.suffix_rfl

theorem consumeBlocks_full (ps : List (List Byte)) :
    consumeBlocks ps (encodeStream ps).length = (ps.flatten, [], 0) := by
  induction ps with
  | nil => rfl
  | cons p ps ih =>
    simp only [consumeBlocks, encodeStream_cons, List.length_append,
      encodeBlock_length]
    rw [if_pos (by omega)]
    rw [show 4 + p.length + (encodeStream ps).length - (4 + p.length)
      = (encodeStream ps).length by omega]
    rw [ih]
    simp

theorem consumeBlocks_add (ps : List (List Byte)) (w m : Nat) :
    consumeBlocks ps (w + m)
      = ((consumeBlocks ps w).1
          ++ (consumeBlocks (consumeBlocks ps w).2.1
               ((consumeBlocks ps w).2.2 + m)).1,
         (consumeBlocks (consumeBlocks ps w).2.1
           ((consumeBlocks ps w).2.2 + m)).2) := by
  induction ps generalizing w m with
  | nil => simp [consumeBlocks]
  | cons p ps ih =>
    by_cases h : 4 + p.length ≤ w
    · have h2 : 4 + p.length ≤ w + m := by omega
      simp only [consumeBlocks, if_pos h, if_pos h2]
      rw [show w + m - (4 + p.length) = (w - (4 + p.length)) + m by omega]
      rw [ih]
      simp
    · simp only [consumeBlocks, if_neg h]
      simp

theorem consumeBlocks_v_le (ps : List (List Byte)) (w : Nat)
    (hw : w ≤ (encodeStream ps).length) :
    (consumeBlocks ps w).2.2
      ≤ (encodeStream (consumeBlocks ps w).2.1).length := by
  induction ps generalizing w with
  | nil =>
    simp only [encodeStream_nil, List.length_nil] at hw
    simp [consumeBlocks]
    omega
  | cons p ps ih =>
    simp only [consumeBlocks]
    split
    · rename_i h
      apply ih
      simp only [encodeStream_cons, List.length_append, encodeBlock_length] at hw
      omega
    · rename_i h
      simp only [encodeStream_cons, List.length_append, encodeBlock_length]
      omega

/-- Exactly `w - leftover` bytes of the stream belong to the wholly
consumed blocks: dropping them from the stream leaves the encoding of
the remaining payloads. -/
theorem consumeBlocks_decomp (ps : List (List Byte)) (w : Nat)
    (hw : w ≤ (encodeStream ps).length) :
    (encodeStream ps).drop (w - (consumeBlocks ps w).2.2)
      = encodeStream (consumeBlocks ps w).2.1 := by
  induction ps generalizing w with
  | nil => simp [consumeBlocks]
  | cons p ps ih =>
    by_cases h : 4 + p.length ≤ w
    · simp only [consumeBlocks, if_pos h]
      show (encodeStream (p :: ps)).drop
          (w - (consumeBlocks ps (w - (4 + p.length))).2.2)
        = encodeStream (consumeBlocks ps (w - (4 + p.length))).2.1
      rw [encodeStream_cons, List.drop_append_eq_append_drop]
      have hv := consumeBlocks_le ps (w - (4 + p.length))
      have h1 : (encodeBlock p).drop
          (w - (consumeBlocks ps (w - (4 + p.length))).2.2) = [] := by
        apply List.drop_eq_nil_of_le
        simp only [encodeBlock_length]
        omega
      rw [h1, List.nil_append]
      have h2 : w - (consumeBlocks ps (w - (4 + p.length))).2.2
            - (encodeBlock p).length
          = (w - (4 + p.length)) - (consumeBlocks ps (w - (4 + p.length))).2.2 := by
        simp only [encodeBlock_length]
        omega
      rw [h2]
      apply ih
      simp only [encodeStream_cons, List.length_append, encodeBlock_length] at hw
      omega
    · simp only [consumeBlocks, if_neg h]
      show (encodeStream (p :: ps)).drop (w - w) = encodeStream (p :: ps)
      simp

theorem decodeLen_lenBytes (n : Nat) (rest : List Byte) (h : n < 4294967296) :
    decodeLen (lenBytes n ++ rest) = n := by
  simp only [lenBytes, List.cons_append, List.nil_append, decodeLen]
  omega

theorem encodeStream_length_le (ps : List (List Byte))
    (hps : ∀ p ∈ ps, 0 < p.length) :
    (encodeStream ps).length ≤ 5 * ps.flatten.length := by
  induction ps with
  | nil => simp
  | cons p ps ih =>
    have hp := hps p (by simp)
    have hih := ih (fun q hq => hps q (by simp [hq]))
    simp only [encodeStream_cons, List.length_append, encodeBlock_length,
      List.flatten_cons]
    omega

/-- Main characterisation of the model block decoder on a prefix of an
encoded stream: it emits exactly the payloads of the wholly present
blocks (within the output capacity covering all of them), consumes
exactly their bytes, and the unconsumed leftover is the corresponding
prefix of the remaining payloads' encoding. -/
theorem decodeBlocks_take (qs : List (List Byte)) (w cap fuel : Nat)
    (hsz : ∀ p ∈ qs, p.length < 4294967296)
    (hcap : qs.flatten.length ≤ cap)
    (hw : w ≤ (encodeStream qs).length)
    (hfuel : w ≤ fuel) :
    decodeBlocks fuel cap ((encodeStream qs).take w)
      = ((consumeBlocks qs w).1, w - (consumeBlocks qs w).2.2) ∧
    ((encodeStream qs).take w).drop (w - (consumeBlocks qs w).2.2)
      = (encodeStream (consumeBlocks qs w).2.1).take (consumeBlocks qs w).2.2 := by
  induction qs generalizing w cap fuel with
  | nil =>
    simp only [encodeStream_nil, List.length_nil] at hw
    have hw0 : w = 0 := by omega
    subst hw0
    constructor
    · cases fuel with
      | zero => rfl
      | succ fuel => simp [decodeBlocks, decodeLen]
    · simp
  | cons p ps ih =>
    have hp4 : 4 ≤ 4 + p.length := by omega
    have hplen : p.length < 4294967296 := hsz p (by simp)
    have hflat : p.length + ps.flatten.length ≤ cap := by
      simpa using hcap
    by_cases hblw : 4 + p.length ≤ w
    · -- the first block is wholly within the prefix
      cases fuel with
      | zero => omega
      | succ fuel =>
        have hsrc : (encodeStream (p :: ps)).take w
            = encodeBlock p ++ (encodeStream ps).take (w - (4 + p.length)) := by
          rw [encodeStream_cons, List.take_append_eq_append_take]
          congr 1
          · apply List.take_of_length_le
            simp only [encodeBlock_length]
            omega
          · congr 1
            simp only [encodeBlock_length]
        have hlen_src : ((encodeStream (p :: ps)).take w).length = w := by
          simp only [List.length_take]
          omega
        have hdl : decodeLen ((encodeStream (p :: ps)).take w) = p.length := by
          rw [hsrc]
          rw [show encodeBlock p ++ (encodeStream ps).take (w - (4 + p.length))
            = lenBytes p.length
              ++ (p ++ (encodeStream ps).take (w - (4 + p.length))) by
            simp [encodeBlock]]
          exact decodeLen_lenBytes p.length _ hplen
        have hguard : 4 + decodeLen ((encodeStream (p :: ps)).take w)
            ≤ ((encodeStream (p :: ps)).take w).length
            ∧ decodeLen ((encodeStream (p :: ps)).take w) ≤ cap := by
          rw [hdl, hlen_src]
          omega
        have hdrop4 : ((encodeStream (p :: ps)).take w).drop 4
            = p ++ (encodeStream ps).take (w - (4 + p.length)) := by
          rw [hsrc]
          rw [show encodeBlock p ++ (encodeStream ps).take (w - (4 + p.length))
            = lenBytes p.length
              ++ (p ++ (encodeStream ps).take (w - (4 + p.length))) by
            simp [encodeBlock]]
          rw [show (4 : Nat) = (lenBytes p.length).length by simp [lenBytes]]
          rw [List.drop_left]
        have hpay : (((encodeStream (p :: ps)).take w).drop 4).take p.length
            = p := by
          rw [hdrop4]
          simpa using List.take_left p ((encodeStream ps).take (w - (4 + p.length)))
        have hdropbl : ((encodeStream (p :: ps)).take w).drop (4 + p.length)
            = (encodeStream ps).take (w - (4 + p.length)) := by
          rw [hsrc]
          rw [show (4 + p.length : Nat) = (encodeBlock p).length by simp]
          rw [List.drop_left]
        have hih := ih (w - (4 + p.length)) (cap - p.length) fuel
          (fun q hq => hsz q (by simp [hq]))
          (by simp only [List.flatten_cons, List.length_append] at hcap ⊢; omega)
          (by simp only [encodeStream_cons, List.length_append,
                encodeBlock_length] at hw; omega)
          (by omega)
        constructor
        · simp only [decodeBlocks]
          rw [if_pos hguard]
          simp only [hdl, hpay, hdropbl]
          rw [hih.1]
          simp only [consumeBlocks, if_pos hblw]
          have hvle := consumeBlocks_le ps (w - (4 + p.length))
          rw [Prod.mk.injEq]
          exact ⟨rfl, by omega⟩
        · simp only [consumeBlocks, if_pos hblw]
          show ((encodeStream (p :: ps)).take w).drop
              (w - (consumeBlocks ps (w - (4 + p.length))).2.2) = _
          rw [hsrc, List.drop_append_eq_append_drop]
          have hvle := consumeBlocks_le ps (w - (4 + p.length))
          have h1 : (encodeBlock p).drop
              (w - (consumeBlocks ps (w - (4 + p.length))).2.2) = [] := by
            apply List.drop_eq_nil_of_le
            simp only [encodeBlock_length]
            omega
          rw [h1, List.nil_append]
          have h2 : w - (consumeBlocks ps (w - (4 + p.length))).2.2
              - (encodeBlock p).length
              = (w - (4 + p.length))
                - (consumeBlocks ps (w - (4 + p.length))).2.2 := by
            simp only [encodeBlock_length]
            omega
          rw [h2]
          exact hih.2
    · -- the first block is not wholly within the prefix
      have hres : consumeBlocks (p :: ps) w = ([], p :: ps, w) := by
        simp only [consumeBlocks, if_neg hblw]
      constructor
      · rw [hres]
        cases fuel with
        | zero => simp [decodeBlocks]
        | succ fuel =>
          simp only [decodeBlocks]
          have hlen_src : ((encodeStream (p :: ps)).take w).length = w := by
            simp only [List.length_take]
            omega
          by_cases h4 : 4 ≤ w
          · have hl4 : (lenBytes p.length).length = 4 := by simp [lenBytes]
            have hform : (encodeStream (p :: ps)).take w
                = lenBytes p.length ++ ((p ++ encodeStream ps).take (w - 4)) := by
              rw [encodeStream_cons,
                show encodeBlock p ++ encodeStream ps
                  = lenBytes p.length ++ (p ++ encodeStream ps) by
                  simp [encodeBlock],
                List.take_append_eq_append_take, hl4,
                List.take_of_length_le (by omega)]
            have hdl : decodeLen ((encodeStream (p :: ps)).take w) = p.length := by
              rw [hform]
              exact decodeLen_lenBytes p.length _ hplen
            rw [if_neg]
            · simp
            · rw [hdl, hlen_src]
              intro hcon
              omega
          · rw [if_neg]
            · simp
            · rw [hlen_src]
              intro hcon
              omega
      · rw [hres]
        show ((encodeStream (p :: ps)).take w).drop (w - w)
          = (encodeStream (p :: ps)).take w
        simp

/-!
## Running the model decompression stream over a chunked stream
-/

theorem mem_length_le_flatten (p : List Byte) (ps : List (List Byte))
    (h : p ∈ ps) : p.length ≤ ps.flatten.length := by
  induction ps with
  | nil => cases h
  | cons q qs ih =>
    simp only [List.flatten_cons, List.length_append]
    rcases List.mem_cons.mp h with hq | hq
    · subst hq
      omega
    · have := ih hq
      omega

theorem suffix_flatten_le (qs ps : List (List Byte)) (h : qs <:+ ps) :
    qs.flatten.length ≤ ps.flatten.length := by
  obtain ⟨pre, hpre⟩ := h
  subst hpre
  simp

theorem take_drop_append (a b : List Byte) (t m : Nat) (h : t + m ≤ a.length) :
    ((a ++ b).drop t).take m = (a.drop t).take m := by
  rw [List.drop_append_eq_append_drop, List.take_append_eq_append_take]
  have h1 : m - (a.drop t).length = 0 := by
    simp only [List.length_drop]
    omega
  rw [h1]
  simp

/-- The full compressed stream the model compression stream produces for
the payload chunks `ps` (after the priming feed): the 19-byte header
followed by one block per chunk. -/
def modelStream (ps : List (List Byte)) : List Byte :=
  modelHeader ++ encodeStream ps

@[simp] theorem modelHeader_length : modelHeader.length = HEADER_SIZE := rfl

theorem modelStream_length (ps : List (List Byte)) :
    (modelStream ps).length = HEADER_SIZE + (encodeStream ps).length := by
  simp [modelStream]

/-- Invariant tying the decompression stream state to the position `t`
reached within `modelStream ps`: before the header completes the state is
the pure header-accumulation state; afterwards the input buffer holds
exactly the partial-block leftover of the fed bytes. -/
def ModelInv (ps : List (List Byte)) (t : Nat)
    (s : DStream lz4ModelCodec) : Prop :=
  if t < HEADER_SIZE then s = headerPartialState lz4ModelCodec () modelHeader t
  else s.header_size = HEADER_SIZE ∧ s.buffer_maxn = 64 * 1024 ∧
    s.buffer_size = (consumeBlocks ps (t - HEADER_SIZE)).2.2 ∧
    ∃ arr, s.buffer = some arr ∧ arr.length = 64 * 1024 ∧
      arr.take s.buffer_size
        = (encodeStream (consumeBlocks ps (t - HEADER_SIZE)).2.1).take
            (consumeBlocks ps (t - HEADER_SIZE)).2.2

theorem ModelInv_zero (ps : List (List Byte)) :
    ModelInv ps 0 (xm_lz4_dstream_init lz4ModelCodec ()) := by
  unfold ModelInv
  rw [if_pos (by simp [HEADER_SIZE, LZ4F_HEADER_SIZE_MAX])]
  rfl

/-- Block-phase step for the model codec: from a state whose buffer holds
the partial-block leftover after `u` stream bytes, feeding the next `m`
bytes decodes exactly the newly completed blocks and leaves the new
leftover buffered. -/
theorem model_blockPhase_step (ps : List (List Byte))
    (hcap : ps.flatten.length ≤ TB_STREAM_BLOCK_MAXN)
    (hsz : ∀ p ∈ ps, p.length < 4294967296)
    (hes_le : (encodeStream ps).length ≤ 40960)
    (u : Nat) (arr : List Byte)
    (harrlen : arr.length = 64 * 1024)
    (s : DStream lz4ModelCodec)
    (hh : s.header_size = HEADER_SIZE)
    (hmx : s.buffer_maxn = 64 * 1024)
    (hbs : s.buffer_size = (consumeBlocks ps u).2.2)
    (hbuf : s.buffer = some arr)
    (htk : arr.take s.buffer_size
      = (encodeStream (consumeBlocks ps u).2.1).take (consumeBlocks ps u).2.2)
    (c : List Byte) (hm : 0 < c.length)
    (hcs : c = ((encodeStream ps).drop u).take c.length)
    (hum : u + c.length ≤ (encodeStream ps).length) :
    ∃ s2 out, dstream_blockPhase lz4ModelCodec s c = .ok s2 out ∧
      s2.header_size = HEADER_SIZE ∧ s2.buffer_maxn = 64 * 1024 ∧
      s2.buffer_size = (consumeBlocks ps (u + c.length)).2.2 ∧
      (∃ arr2, s2.buffer = some arr2 ∧ arr2.length = 64 * 1024 ∧
        arr2.take s2.buffer_size
          = (encodeStream (consumeBlocks ps (u + c.length)).2.1).take
              (consumeBlocks ps (u + c.length)).2.2) ∧
      (consumeBlocks ps u).1 ++ out = (consumeBlocks ps (u + c.length)).1 := by
  have hvu : (consumeBlocks ps u).2.2 ≤ u := consumeBlocks_le ps u
  have hu_le : u ≤ (encodeStream ps).length := by omega
  have hdecomp := consumeBlocks_decomp ps u hu_le
  have hq_len : (consumeBlocks ps u).2.2 + c.length
      ≤ (encodeStream (consumeBlocks ps u).2.1).length := by
    have h1 : (encodeStream (consumeBlocks ps u).2.1).length
        = (encodeStream ps).length - (u - (consumeBlocks ps u).2.2) := by
      rw [← hdecomp]
      simp
    omega
  have hsplit_u : u = (u - (consumeBlocks ps u).2.2)
      + (consumeBlocks ps u).2.2 := by omega
  have hdd : (encodeStream ps).drop u
      = (encodeStream (consumeBlocks ps u).2.1).drop
          (consumeBlocks ps u).2.2 := by
    conv_lhs => rw [hsplit_u]
    rw [← List.drop_drop, hdecomp]
  have hc2 : c = ((encodeStream (consumeBlocks ps u).2.1).drop
      (consumeBlocks ps u).2.2).take c.length := by
    conv_lhs => rw [hcs]
    rw [hdd]
  have hsrc : arr.take s.buffer_size ++ c
      = (encodeStream (consumeBlocks ps u).2.1).take
          ((consumeBlocks ps u).2.2 + c.length) := by
    rw [htk]
    conv_lhs => rw [hc2]
    exact (List.take_add _ _ _).symm
  have hsuff := consumeBlocks_suffix ps u
  have spec := decodeBlocks_take (consumeBlocks ps u).2.1
    ((consumeBlocks ps u).2.2 + c.length) TB_STREAM_BLOCK_MAXN
    ((encodeStream (consumeBlocks ps u).2.1).take
      ((consumeBlocks ps u).2.2 + c.length)).length
    (fun q hq => hsz q (hsuff.subset hq))
    (le_trans (suffix_flatten_le _ _ hsuff) hcap)
    hq_len
    (by simp only [List.length_take]; omega)
  have hfit : s.buffer_size + c.length ≤ s.buffer_maxn := by
    rw [hbs, hmx]
    omega
  have harr_bs : s.buffer_size + c.length ≤ arr.length := by
    rw [harrlen, hbs]
    omega
  have hsrc_take : (listWrite arr s.buffer_size c).take
      (s.buffer_size + c.length) = arr.take s.buffer_size ++ c :=
    listWrite_take arr c s.buffer_size (by omega)
  have hdec2 : lz4ModelCodec.decompress s.dctx TB_STREAM_BLOCK_MAXN
      ((listWrite arr s.buffer_size c).take (s.buffer_size + c.length))
      = some ((), (consumeBlocks (consumeBlocks ps u).2.1
            ((consumeBlocks ps u).2.2 + c.length)).1,
          ((consumeBlocks ps u).2.2 + c.length)
            - (consumeBlocks (consumeBlocks ps u).2.1
                ((consumeBlocks ps u).2.2 + c.length)).2.2) := by
    rw [hsrc_take, hsrc]
    show some ((), decodeBlocks
      ((encodeStream (consumeBlocks ps u).2.1).take
        ((consumeBlocks ps u).2.2 + c.length)).length TB_STREAM_BLOCK_MAXN
      ((encodeStream (consumeBlocks ps u).2.1).take
        ((consumeBlocks ps u).2.2 + c.length))) = _
    rw [spec.1]
  rw [blockPhase_decompress lz4ModelCodec s c hh (by omega) hbuf hfit hdec2]
  have hadd := consumeBlocks_add ps u c.length
  have hv2le : (consumeBlocks (consumeBlocks ps u).2.1
      ((consumeBlocks ps u).2.2 + c.length)).2.2
      ≤ (consumeBlocks ps u).2.2 + c.length :=
    consumeBlocks_le _ _
  have h22 : (consumeBlocks ps (u + c.length)).2.2
      = (consumeBlocks (consumeBlocks ps u).2.1
          ((consumeBlocks ps u).2.2 + c.length)).2.2 := by
    rw [hadd]
  have h21 : (consumeBlocks ps (u + c.length)).2.1
      = (consumeBlocks (consumeBlocks ps u).2.1
          ((consumeBlocks ps u).2.2 + c.length)).2.1 := by
    rw [hadd]
  have h1 : (consumeBlocks ps (u + c.length)).1
      = (consumeBlocks ps u).1
        ++ (consumeBlocks (consumeBlocks ps u).2.1
            ((consumeBlocks ps u).2.2 + c.length)).1 := by
    rw [hadd]
  have hbs2 : s.buffer_size + c.length
      - (((consumeBlocks ps u).2.2 + c.length)
        - (consumeBlocks (consumeBlocks ps u).2.1
            ((consumeBlocks ps u).2.2 + c.length)).2.2)
      = (consumeBlocks ps (u + c.length)).2.2 := by
    rw [h22, hbs]
    omega
  have hv2q := consumeBlocks_v_le (consumeBlocks ps u).2.1
    ((consumeBlocks ps u).2.2 + c.length) hq_len
  refine ⟨_, _, rfl, hh, hmx, hbs2, ?_, by rw [h1]⟩
  by_cases hltc : ((consumeBlocks ps u).2.2 + c.length)
      - (consumeBlocks (consumeBlocks ps u).2.1
          ((consumeBlocks ps u).2.2 + c.length)).2.2
      < s.buffer_size + c.length
  · refine ⟨listWrite (listWrite arr s.buffer_size c) 0
        (((listWrite arr s.buffer_size c).take (s.buffer_size + c.length)).drop
          (((consumeBlocks ps u).2.2 + c.length)
            - (consumeBlocks (consumeBlocks ps u).2.1
                ((consumeBlocks ps u).2.2 + c.length)).2.2)), ?_, ?_, ?_⟩
    · simp only [if_pos hltc]
    · rw [listWrite_length _ _ 0 (by
        simp only [List.length_drop, List.length_take]
        omega)]
      rw [listWrite_length arr c s.buffer_size (by omega)]
      exact harrlen
    · show List.take (s.buffer_size + c.length
          - (((consumeBlocks ps u).2.2 + c.length)
            - (consumeBlocks (consumeBlocks ps u).2.1
                ((consumeBlocks ps u).2.2 + c.length)).2.2)) _ = _
      rw [hbs2, h22, h21]
      rw [hsrc_take, hsrc]
      rw [spec.2]
      have hXlen : ((encodeStream (consumeBlocks (consumeBlocks ps u).2.1
            ((consumeBlocks ps u).2.2 + c.length)).2.1).take
          (consumeBlocks (consumeBlocks ps u).2.1
            ((consumeBlocks ps u).2.2 + c.length)).2.2).length
          = (consumeBlocks (consumeBlocks ps u).2.1
              ((consumeBlocks ps u).2.2 + c.length)).2.2 := by
        simp only [List.length_take]
        omega
      have h := listWrite_zero_take (listWrite arr s.buffer_size c)
        ((encodeStream (consumeBlocks (consumeBlocks ps u).2.1
            ((consumeBlocks ps u).2.2 + c.length)).2.1).take
          (consumeBlocks (consumeBlocks ps u).2.1
            ((consumeBlocks ps u).2.2 + c.length)).2.2)
      rw [hXlen] at h
      exact h
  · have hv20 : (consumeBlocks (consumeBlocks ps u).2.1
        ((consumeBlocks ps u).2.2 + c.length)).2.2 = 0 := by
      rw [hbs] at hltc
      omega
    refine ⟨listWrite arr s.buffer_size c, ?_, ?_, ?_⟩
    · simp only [if_neg hltc]
    · rw [listWrite_length arr c s.buffer_size (by omega)]
      exact harrlen
    · show List.take (s.buffer_size + c.length
          - (((consumeBlocks ps u).2.2 + c.length)
            - (consumeBlocks (consumeBlocks ps u).2.1
                ((consumeBlocks ps u).2.2 + c.length)).2.2)) _ = _
      rw [hbs2, h22, hv20]
      simp

/-- One feed call preserves `ModelInv` and emits exactly the newly
decodable payload bytes, for any chunk `c` that consists of the next
`c.length` bytes of `modelStream ps`. -/
theorem model_feed_step (ps : List (List Byte))
    (hps : ∀ p ∈ ps, 0 < p.length)
    (hcap : ps.flatten.length ≤ TB_STREAM_BLOCK_MAXN)
    (t : Nat) (s : DStream lz4ModelCodec) (c : List Byte)
    (hc : 0 < c.length)
    (hinv : ModelInv ps t s)
    (hcb : c = ((modelStream ps).drop t).take c.length)
    (hbound : t + c.length ≤ (modelStream ps).length) :
    ∃ s2 out, xm_lz4_dstream_decompress lz4ModelCodec s c = .ok s2 out ∧
      ModelInv ps (t + c.length) s2 ∧
      (consumeBlocks ps (t - HEADER_SIZE)).1 ++ out
        = (consumeBlocks ps (t + c.length - HEADER_SIZE)).1 := by
  have hes_le : (encodeStream ps).length ≤ 40960 := by
    have h5 := encodeStream_length_le ps hps
    simp only [TB_STREAM_BLOCK_MAXN] at hcap
    omega
  have hsz : ∀ p ∈ ps, p.length < 4294967296 := by
    intro p hp
    have h1 := mem_length_le_flatten p ps hp
    simp only [TB_STREAM_BLOCK_MAXN] at hcap
    omega
  have hSlen := modelStream_length ps
  by_cases hlt : t < HEADER_SIZE
  · have hs : s = headerPartialState lz4ModelCodec () modelHeader t := by
      unfold ModelInv at hinv
      rwa [if_pos hlt] at hinv
    subst hs
    have htl : (modelHeader.take t).length = t := by
      simp only [List.length_take, modelHeader_length]
      omega
    by_cases hcomp : t + c.length < HEADER_SIZE
    · -- (a) chunk stays within the header
      have hcmh : c = (modelHeader.drop t).take c.length := by
        conv_lhs => rw [hcb]
        unfold modelStream
        exact take_drop_append _ _ _ _
          (by simp only [modelHeader_length]; omega)
      have hfeed := dstream_feed_headerPartial lz4ModelCodec
        (headerPartialState lz4ModelCodec () modelHeader t) c (by omega) hcomp
      refine ⟨_, _, hfeed, ?_, ?_⟩
      · unfold ModelInv
        rw [if_pos hcomp]
        have hpad := listWrite_pad (modelHeader.take t) c
          (LZ4F_HEADER_SIZE_MAX - t)
        rw [htl] at hpad
        simp only [headerPartialState, xm_lz4_dstream_init, DStream.mk.injEq]
        refine ⟨trivial, trivial, trivial, trivial, trivial, ?_⟩
        rw [hpad, List.take_add, ← hcmh]
        rw [show LZ4F_HEADER_SIZE_MAX - t - c.length
          = LZ4F_HEADER_SIZE_MAX - (t + c.length) by omega]
      · rw [show t - HEADER_SIZE = 0 by omega,
          show t + c.length - HEADER_SIZE = 0 by omega]
        simp
    · -- (b) the header completes during this chunk
      have hsize_le : HEADER_SIZE ≤ t + c.length := by omega
      have hctake : c.take (HEADER_SIZE - t) = modelHeader.drop t := by
        rw [hcb]
        unfold modelStream
        rw [List.take_take]
        rw [show min (HEADER_SIZE - t) c.length = HEADER_SIZE - t by omega]
        rw [take_drop_append _ _ _ _
          (by simp only [modelHeader_length]; omega)]
        apply List.take_of_length_le
        simp only [List.length_drop, modelHeader_length]
        omega
      have hassembled : listWrite
          (modelHeader.take t ++ List.replicate (LZ4F_HEADER_SIZE_MAX - t) 0) t
          (c.take (HEADER_SIZE - t)) = modelHeader := by
        rw [hctake]
        have hpad := listWrite_pad (modelHeader.take t) (modelHeader.drop t)
          (LZ4F_HEADER_SIZE_MAX - t)
        rw [htl] at hpad
        rw [hpad, List.take_append_drop]
        rw [show LZ4F_HEADER_SIZE_MAX - t - (modelHeader.drop t).length = 0 by
          simp only [List.length_drop, modelHeader_length]
          simp only [HEADER_SIZE, LZ4F_HEADER_SIZE_MAX] at hlt ⊢
          omega]
        simp
      have hinfo : lz4ModelCodec.getFrameInfo
          (headerPartialState lz4ModelCodec () modelHeader t).dctx
          (listWrite (headerPartialState lz4ModelCodec () modelHeader t).header
            (headerPartialState lz4ModelCodec () modelHeader t).header_size
            (c.take (HEADER_SIZE
              - (headerPartialState lz4ModelCodec () modelHeader t).header_size)))
          = some ((), LZ4F_max64KB, 7) := by
        show lz4ModelCodec.getFrameInfo ()
          (listWrite (modelHeader.take t
            ++ List.replicate (LZ4F_HEADER_SIZE_MAX - t) 0) t
            (c.take (HEADER_SIZE - t))) = some ((), LZ4F_max64KB, 7)
        rw [hassembled]
        rfl
      have hmaxn : blockMaxn LZ4F_max64KB = some (64 * 1024) := by decide
      rw [dstream_feed_headerComplete lz4ModelCodec
        (headerPartialState lz4ModelCodec () modelHeader t) c (by omega) hlt
        hsize_le hinfo hmaxn]
      have hrest : c.drop (HEADER_SIZE - t)
          = (encodeStream ps).take (t + c.length - HEADER_SIZE) := by
        conv_lhs => rw [hcb]
        rw [List.drop_take]
        rw [List.drop_drop]
        unfold modelStream
        rw [show t + (HEADER_SIZE - t) = HEADER_SIZE by omega]
        rw [show (HEADER_SIZE : Nat) = modelHeader.length from rfl,
          List.drop_left]
        simp only [modelHeader_length]
        congr 1
        omega
      by_cases heq : t + c.length = HEADER_SIZE
      · -- the chunk ends exactly at the header boundary
        have hre : c.drop (HEADER_SIZE
            - (headerPartialState lz4ModelCodec () modelHeader t).header_size)
            = [] := by
          show c.drop (HEADER_SIZE - t) = []
          rw [hrest, heq]
          simp
        rw [hre, blockPhase_empty]
        refine ⟨_, _, rfl, ?_, ?_⟩
        · unfold ModelInv
          rw [if_neg (by omega)]
          refine ⟨rfl, rfl, ?_, List.replicate (64 * 1024) 0, rfl,
            by rw [List.length_replicate], ?_⟩
          · show (0 : Nat) = (consumeBlocks ps (t + c.length - HEADER_SIZE)).2.2
            rw [show t + c.length - HEADER_SIZE = 0 by omega, consumeBlocks_zero]
          · rw [show t + c.length - HEADER_SIZE = 0 by omega, consumeBlocks_zero]
            rfl
        · rw [show t - HEADER_SIZE = 0 by omega,
            show t + c.length - HEADER_SIZE = 0 by omega]
          simp
      · -- block bytes remain after the header: use the block-phase step at u = 0
        have hu2 : 0 < t + c.length - HEADER_SIZE := by omega
        have hrlen : (c.drop (HEADER_SIZE - t)).length
            = t + c.length - HEADER_SIZE := by
          simp only [List.length_drop]
          omega
        have hcs0 : c.drop (HEADER_SIZE - t)
            = ((encodeStream ps).drop 0).take (c.drop (HEADER_SIZE - t)).length := by
          rw [List.drop_zero, hrlen]
          exact hrest
        have hum0 : 0 + (c.drop (HEADER_SIZE - t)).length
            ≤ (encodeStream ps).length := by
          rw [hrlen]
          omega
        obtain ⟨s2, out, hrun, hh2, hmx2, hbs2, harr2, hout⟩ :=
          model_blockPhase_step ps hcap hsz hes_le 0
            (List.replicate (64 * 1024) 0) (by rw [List.length_replicate])
            { headerPartialState lz4ModelCodec () modelHeader t with
                header := listWrite
                  (headerPartialState lz4ModelCodec () modelHeader t).header
                  (headerPartialState lz4ModelCodec () modelHeader t).header_size
                  (c.take (HEADER_SIZE
                    - (headerPartialState lz4ModelCodec () modelHeader t).header_size))
                header_size := HEADER_SIZE
                dctx := ()
                buffer_maxn := 64 * 1024
                buffer := some (List.replicate (64 * 1024) 0) }
            rfl rfl (by rw [consumeBlocks_zero]; rfl) rfl
            (by rw [consumeBlocks_zero]; rfl)
            (c.drop (HEADER_SIZE - t)) (by omega) hcs0 hum0
        have hidx : 0 + (c.drop (HEADER_SIZE - t)).length
            = t + c.length - HEADER_SIZE := by
          rw [hrlen]
          omega
        rw [hidx] at hbs2 harr2 hout
        refine ⟨s2, out, hrun, ?_, ?_⟩
        · unfold ModelInv
          rw [if_neg (by omega)]
          exact ⟨hh2, hmx2, hbs2, harr2⟩
        · rw [show t - HEADER_SIZE = 0 by omega]
          exact hout
  · -- (c) already in the block phase
    have hinv2 : s.header_size = HEADER_SIZE ∧ s.buffer_maxn = 64 * 1024 ∧
        s.buffer_size = (consumeBlocks ps (t - HEADER_SIZE)).2.2 ∧
        ∃ arr, s.buffer = some arr ∧ arr.length = 64 * 1024 ∧
          arr.take s.buffer_size
            = (encodeStream (consumeBlocks ps (t - HEADER_SIZE)).2.1).take
                (consumeBlocks ps (t - HEADER_SIZE)).2.2 := by
      unfold ModelInv at hinv
      rwa [if_neg hlt] at hinv
    obtain ⟨hh, hmx, hbs, arr, hbuf, harrlen, htk⟩ := hinv2
    have hdropS : (modelStream ps).drop t
        = (encodeStream ps).drop (t - HEADER_SIZE) := by
      unfold modelStream
      rw [List.drop_append_eq_append_drop]
      rw [List.drop_eq_nil_of_le (by rw [modelHeader_length]; omega),
        List.nil_append]
      rw [modelHeader_length]
    have hcs2 : c = ((encodeStream ps).drop (t - HEADER_SIZE)).take c.length := by
      conv_lhs => rw [hcb, hdropS]
    have hum2 : (t - HEADER_SIZE) + c.length ≤ (encodeStream ps).length := by
      omega
    rw [dstream_feed_skipHeader lz4ModelCodec s c (by omega) (by omega)]
    obtain ⟨s2, out, hrun, hh2, hmx2, hbs2, harr2, hout⟩ :=
      model_blockPhase_step ps hcap hsz hes_le (t - HEADER_SIZE) arr harrlen
        s hh hmx hbs hbuf htk c hc hcs2 hum2
    have hidx : (t - HEADER_SIZE) + c.length = t + c.length - HEADER_SIZE := by
      omega
    rw [hidx] at hbs2 harr2 hout
    refine ⟨s2, out, hrun, ?_, hout⟩
    unfold ModelInv
    rw [if_neg (by omega)]
    exact ⟨hh2, hmx2, hbs2, harr2⟩

/-- Running any chunking of the tail of `modelStream ps` from a state
satisfying the invariant at position `t` succeeds, and the collected
output extends the already-decoded payload to exactly `ps.flatten`. -/
theorem model_dstream_run (ps : List (List Byte))
    (hps : ∀ p ∈ ps, 0 < p.length)
    (hcap : ps.flatten.length ≤ TB_STREAM_BLOCK_MAXN)
    (cs : List (List Byte)) :
    ∀ (t : Nat) (s : DStream lz4ModelCodec), ModelInv ps t s →
    (∀ c ∈ cs, 0 < c.length) →
    cs.flatten = (modelStream ps).drop t →
    t ≤ (modelStream ps).length →
    ∃ s2 outs, dstream_run lz4ModelCodec s cs = some (s2, outs) ∧
      (consumeBlocks ps (t - HEADER_SIZE)).1 ++ outs.flatten = ps.flatten := by
  induction cs with
  | nil =>
    intro t s hinv hne hflat ht
    have hlen : (modelStream ps).length ≤ t := by
      have h1 := congrArg List.length hflat
      simp only [List.flatten_nil, List.length_nil, List.length_drop] at h1
      omega
    have hteq : t = (modelStream ps).length := by omega
    refine ⟨s, [], rfl, ?_⟩
    have hS := modelStream_length ps
    rw [hteq, hS, show HEADER_SIZE + (encodeStream ps).length - HEADER_SIZE
      = (encodeStream ps).length by omega, consumeBlocks_full]
    simp
  | cons c cs ih =>
    intro t s hinv hne hflat ht
    have hcpos : 0 < c.length := hne c (by simp)
    have hlenflat := congrArg List.length hflat
    simp only [List.flatten_cons, List.length_append, List.length_drop]
      at hlenflat
    have hbound : t + c.length ≤ (modelStream ps).length := by omega
    have hctake : c = ((modelStream ps).drop t).take c.length := by
      rw [← hflat]
      simp only [List.flatten_cons]
      rw [List.take_left]
    have hdropflat : cs.flatten = (modelStream ps).drop (t + c.length) := by
      have h2 := congrArg (List.drop c.length) hflat
      simp only [List.flatten_cons, List.drop_left, List.drop_drop] at h2
      rw [h2]
    obtain ⟨s1, out, hfeed, hinv2, hout⟩ :=
      model_feed_step ps hps hcap t s c hcpos hinv hctake hbound
    obtain ⟨s2, outs, hrun, hall⟩ :=
      ih (t + c.length) s1 hinv2 (fun x hx => hne x (by simp [hx]))
        hdropflat (by omega)
    refine ⟨s2, out :: outs, ?_, ?_⟩
    · simp only [dstream_run, hfeed, hrun]
    · simp only [List.flatten_cons]
      rw [← List.append_assoc, hout]
      exact hall

/-- After the header has been emitted, each further compress call on the
model codec emits exactly the length-prefixed block of its chunk. -/
theorem model_cstream_run_update (ps : List (List Byte)) :
    ∀ s : CStream lz4ModelCodec,
      (∀ p ∈ ps, 0 < p.length ∧ p.length ≤ s.write_maxn) →
      s.header_written = true →
      ∃ s2, cstream_run lz4ModelCodec s ps = some (s2, ps.map encodeBlock) := by
  induction ps with
  | nil =>
    intro s _ _
    exact ⟨s, rfl⟩
  | cons p ps ih =>
    intro s hps h1
    obtain ⟨hp0, hpm⟩ := hps p (by simp)
    have hu : lz4ModelCodec.compressUpdate s.cctx p
        = some ((), encodeBlock p) := rfl
    have hfeed := cstream_compress_update lz4ModelCodec s p (by omega) hpm h1 hu
    obtain ⟨s2, hrun⟩ := ih { s with cctx := () }
      (fun q hq => hps q (List.mem_cons_of_mem p hq)) h1
    exact ⟨s2, by simp only [cstream_run, hfeed, hrun, List.map_cons]⟩

/-- A fresh compression stream fed a priming chunk followed by the payload
chunks emits the header view first and then one encoded block per chunk:
the priming chunk itself appears in no output. -/
theorem model_cstream_run (prime : List Byte) (hp0 : 0 < prime.length)
    (hpm : prime.length ≤ 64 * 1024)
    (ps : List (List Byte))
    (hps : ∀ p ∈ ps, 0 < p.length ∧ p.length ≤ 64 * 1024) :
    ∃ s2, cstream_run lz4ModelCodec modelC0 (prime :: ps)
      = some (s2, modelHeader :: ps.map encodeBlock) := by
  have hfirst := cstream_compress_first lz4ModelCodec modelC0 prime
    (by omega) hpm rfl
  obtain ⟨s2, hrun⟩ := model_cstream_run_update ps
    { modelC0 with header_written := true } hps rfl
  refine ⟨s2, ?_⟩
  simp only [cstream_run, hfirst, hrun]
  rfl

/-- C1 (counterexample): the round trip fails on the one-chunk input `[5]`
because `xm_lz4_cstream_compress` discards the data of its first call:
compressing `[5]` from a fresh stream emits only the frame header, and
decompressing that header yields no payload bytes at all. -/
theorem C1_counterexample_first_chunk_lost :
    ∃ s1 outsC, cstream_run lz4ModelCodec modelC0 [[5]] = some (s1, outsC) ∧
      ∃ s2 outsD, dstream_run lz4ModelCodec modelD0 [outsC.flatten]
          = some (s2, outsD) ∧
        outsD.flatten ≠ [5] := by
  obtain ⟨s1, hcomp⟩ := model_cstream_run [5] (by decide) (by decide) []
    (by simp)
  refine ⟨s1, [modelHeader], hcomp, ?_⟩
  obtain ⟨s2, outs, hrun, hout⟩ := model_dstream_run [] (by simp) (by decide)
    [List.flatten [modelHeader]] 0 modelD0
    (show ModelInv [] 0 modelD0 from ModelInv_zero [])
    (by decide) (by simp [modelStream]) (by omega)
  refine ⟨s2, outs, ?_, ?_⟩
  · simpa using hrun
  · rw [show (0 : Nat) - HEADER_SIZE = 0 from rfl, consumeBlocks_zero] at hout
    simp only [List.flatten_nil] at hout
    simp only [List.nil_append] at hout
    rw [hout]
    decide

/-- C1 (amended): round trip holds once the first-call discard is
compensated by a sacrificial priming chunk, every compressed chunk is
nonempty and at most `write_maxn` bytes, and the total payload fits the
fixed `TB_STREAM_BLOCK_MAXN` output buffer of one decompress call:
compressing `prime :: ps`, concatenating the produced views, and feeding
them to a fresh decompression stream in any nonempty chunking `cs`
succeeds and reproduces exactly `ps.flatten`. -/
theorem C1_amended_round_trip (prime : List Byte) (hp0 : 0 < prime.length)
    (hpm : prime.length ≤ 64 * 1024)
    (ps : List (List Byte))
    (hps : ∀ p ∈ ps, 0 < p.length ∧ p.length ≤ 64 * 1024)
    (hcap : ps.flatten.length ≤ TB_STREAM_BLOCK_MAXN)
    (cs : List (List Byte)) (hcs : ∀ c ∈ cs, 0 < c.length)
    (hchunk : cs.flatten = (modelHeader :: ps.map encodeBlock).flatten) :
    ∃ s1 s2 outs,
      cstream_run lz4ModelCodec modelC0 (prime :: ps)
        = some (s1, modelHeader :: ps.map encodeBlock) ∧
      dstream_run lz4ModelCodec modelD0 cs = some (s2, outs) ∧
      outs.flatten = ps.flatten := by
  obtain ⟨s1, hcomp⟩ := model_cstream_run prime hp0 hpm ps hps
  have hps' : ∀ p ∈ ps, 0 < p.length := fun p hp => (hps p hp).1
  have hflat : cs.flatten = (modelStream ps).drop 0 := by
    rw [hchunk]
    rfl
  obtain ⟨s2, outs, hrun, hout⟩ := model_dstream_run ps hps' hcap cs 0 modelD0
    (show ModelInv ps 0 modelD0 from ModelInv_zero ps) hcs hflat (by omega)
  refine ⟨s1, s2, outs, hcomp, hrun, ?_⟩
  rw [show (0 : Nat) - HEADER_SIZE = 0 from rfl, consumeBlocks_zero] at hout
  simpa using hout

/-- Witness for the amended C1 round trip: priming chunk `[0]`, payload
chunks `[1, 2]` and `[3]`, compressed stream refed as one chunk. -/
theorem C1_amended_round_trip_witness :
    ∃ s1 s2 outs,
      cstream_run lz4ModelCodec modelC0 [[0], [1, 2], [3]]
        = some (s1, modelHeader :: [[1, 2], [3]].map encodeBlock) ∧
      dstream_run lz4ModelCodec modelD0 [modelStream [[1, 2], [3]]]
        = some (s2, outs) ∧
      outs.flatten = [[1, 2], [3]].flatten :=
  C1_amended_round_trip [0] (by decide) (by decide) [[1, 2], [3]]
    (by decide) (by decide) [modelStream [[1, 2], [3]]] (by decide)
    (by decide)

theorem decodeBlocks_nil (fuel cap : Nat) : decodeBlocks fuel cap [] = ([], 0) := by
  cases fuel with
  | zero => rfl
  | succ fuel =>
    simp only [decodeBlocks]
    rw [if_neg]
    intro h
    simp only [decodeLen, List.length_nil] at h
    omega

theorem decodeBlocks_stop (fuel cap : Nat) (src : List Byte)
    (hcap : cap < decodeLen src) :
    decodeBlocks (fuel + 1) cap src = ([], 0) := by
  simp only [decodeBlocks]
  rw [if_neg]
  intro h
  omega

theorem decodeBlocks_encodeBlock (fuel cap : Nat) (p rest : List Byte)
    (hlen : p.length < 4294967296) (hcap : p.length ≤ cap) :
    decodeBlocks (fuel + 1) cap (encodeBlock p ++ rest)
      = (p ++ (decodeBlocks fuel (cap - p.length) rest).1,
         4 + p.length + (decodeBlocks fuel (cap - p.length) rest).2) := by
  have hassoc : encodeBlock p ++ rest = lenBytes p.length ++ (p ++ rest) := by
    simp only [encodeBlock, List.append_assoc]
  have hdl : decodeLen (encodeBlock p ++ rest) = p.length := by
    rw [hassoc]
    exact decodeLen_lenBytes p.length (p ++ rest) hlen
  have hlb : (lenBytes p.length).length = 4 := rfl
  have hslen : (encodeBlock p ++ rest).length = 4 + p.length + rest.length := by
    simp only [List.length_append, encodeBlock_length]
  have hdrop4 : (encodeBlock p ++ rest).drop 4 = p ++ rest := by
    rw [hassoc, ← hlb, List.drop_left]
  have hdropAll : (encodeBlock p ++ rest).drop (4 + p.length) = rest := by
    rw [show 4 + p.length = (encodeBlock p).length by rw [encodeBlock_length],
      List.drop_left]
  simp only [decodeBlocks, hdl]
  rw [if_pos (by omega)]
  rw [hdrop4, hdropAll]
  rw [List.take_left]

/-- Block-phase feed into an empty input buffer: the call decodes the
chunk greedily under the fixed `TB_STREAM_BLOCK_MAXN` output cap and
keeps whatever it did not consume buffered. -/
theorem model_clean_blockPhase (s : DStream lz4ModelCodec) (arr : List Byte)
    (hh : s.header_size = HEADER_SIZE) (hmx : s.buffer_maxn = 64 * 1024)
    (hbs : s.buffer_size = 0) (hbuf : s.buffer = some arr)
    (harr : arr.length = 64 * 1024)
    (c : List Byte) (hc : c.length ≠ 0) (hfit : c.length ≤ 64 * 1024) :
    ∃ s2, dstream_blockPhase lz4ModelCodec s c
        = .ok s2 (decodeBlocks c.length TB_STREAM_BLOCK_MAXN c).1 ∧
      s2.header_size = HEADER_SIZE ∧ s2.buffer_maxn = 64 * 1024 ∧
      s2.buffer_size
        = c.length - (decodeBlocks c.length TB_STREAM_BLOCK_MAXN c).2 ∧
      ∃ arr2, s2.buffer = some arr2 ∧ arr2.length = 64 * 1024 := by
  have hX : (listWrite arr s.buffer_size c).take (s.buffer_size + c.length)
      = c := by
    rw [hbs, Nat.zero_add, listWrite_zero_take]
  have hdec : lz4ModelCodec.decompress s.dctx TB_STREAM_BLOCK_MAXN
      ((listWrite arr s.buffer_size c).take (s.buffer_size + c.length))
      = some ((), (decodeBlocks c.length TB_STREAM_BLOCK_MAXN c).1,
          (decodeBlocks c.length TB_STREAM_BLOCK_MAXN c).2) := by
    rw [hX]
    rfl
  have hcons := decodeBlocks_consumed_le c.length TB_STREAM_BLOCK_MAXN c
  have hlw1 : (listWrite arr s.buffer_size c).length = arr.length :=
    listWrite_length arr c s.buffer_size (by omega)
  rw [blockPhase_decompress lz4ModelCodec s c hh hc hbuf (by omega) hdec]
  refine ⟨_, rfl, hh, hmx, ?_, ?_⟩
  · show s.buffer_size + c.length
        - (decodeBlocks c.length TB_STREAM_BLOCK_MAXN c).2
      = c.length - (decodeBlocks c.length TB_STREAM_BLOCK_MAXN c).2
    omega
  · refine ⟨_, rfl, ?_⟩
    split
    · rw [listWrite_length]
      · rw [hlw1, harr]
      · simp only [List.length_drop, List.length_take, hlw1]
        omega
    · rw [hlw1, harr]

/-- A feed call on a model stream past the header whose input buffer is
empty decodes the chunk greedily under the fixed output cap. -/
theorem model_clean_feed (s : DStream lz4ModelCodec) (arr : List Byte)
    (hh : s.header_size = HEADER_SIZE) (hmx : s.buffer_maxn = 64 * 1024)
    (hbs : s.buffer_size = 0) (hbuf : s.buffer = some arr)
    (harr : arr.length = 64 * 1024)
    (c : List Byte) (hc : c.length ≠ 0) (hfit : c.length ≤ 64 * 1024) :
    ∃ s2, xm_lz4_dstream_decompress lz4ModelCodec s c
        = .ok s2 (decodeBlocks c.length TB_STREAM_BLOCK_MAXN c).1 ∧
      s2.header_size = HEADER_SIZE ∧ s2.buffer_maxn = 64 * 1024 ∧
      s2.buffer_size
        = c.length - (decodeBlocks c.length TB_STREAM_BLOCK_MAXN c).2 ∧
      ∃ arr2, s2.buffer = some arr2 ∧ arr2.length = 64 * 1024 := by
  rw [dstream_feed_skipHeader lz4ModelCodec s c hc (by omega)]
  exact model_clean_blockPhase s arr hh hmx hbs hbuf harr c hc hfit

/-- The first feed call on a fresh model decompression stream, given the
whole header plus some block bytes: the header is consumed and the block
bytes are decoded greedily under the fixed output cap. -/
theorem model_first_feed (src : List Byte) (h0 : src.length ≠ 0)
    (hfit : src.length ≤ 64 * 1024) :
    ∃ s2, xm_lz4_dstream_decompress lz4ModelCodec modelD0
          (modelHeader ++ src)
        = .ok s2 (decodeBlocks src.length TB_STREAM_BLOCK_MAXN src).1 ∧
      s2.header_size = HEADER_SIZE ∧ s2.buffer_maxn = 64 * 1024 ∧
      s2.buffer_size
        = src.length - (decodeBlocks src.length TB_STREAM_BLOCK_MAXN src).2 ∧
      ∃ arr2, s2.buffer = some arr2 ∧ arr2.length = 64 * 1024 := by
  have hlen : (modelHeader ++ src).length = HEADER_SIZE + src.length := by
    simp only [List.length_append, modelHeader_length]
  have hinfo : lz4ModelCodec.getFrameInfo modelD0.dctx
      (listWrite modelD0.header modelD0.header_size
        ((modelHeader ++ src).take (HEADER_SIZE - modelD0.header_size)))
      = some ((), LZ4F_max64KB, 7) := by
    rw [show HEADER_SIZE - modelD0.header_size = modelHeader.length from rfl,
      List.take_left]
    rfl
  have hmaxn : blockMaxn LZ4F_max64KB = some (64 * 1024) := by decide
  rw [dstream_feed_headerComplete lz4ModelCodec modelD0 (modelHeader ++ src)
    (by omega) (by decide) (by omega) hinfo hmaxn]
  rw [show HEADER_SIZE - modelD0.header_size = modelHeader.length from rfl,
    List.drop_left]
  exact model_clean_blockPhase _ (List.replicate (64 * 1024) 0) rfl rfl rfl rfl
    (by rw [List.length_replicate]) src h0 hfit

/-- C7 (counterexample): feeding a compressed stream whose payload
exceeds the fixed `TB_STREAM_BLOCK_MAXN` output buffer in one call loses
the part of the payload beyond the cap, while feeding the same bytes
split at the block boundary decodes everything: the combined outputs of
the two-call run differ from the output of the one-call run. -/
theorem C7_counterexample_output_cap :
    ∃ s2 outs2 s1 outs1,
      dstream_run lz4ModelCodec modelD0
          [modelHeader ++ encodeBlock (List.replicate 8192 7),
            encodeBlock [9]]
        = some (s2, outs2) ∧
      dstream_run lz4ModelCodec modelD0
          [(modelHeader ++ encodeBlock (List.replicate 8192 7))
            ++ encodeBlock [9]]
        = some (s1, outs1) ∧
      outs2.flatten ≠ outs1.flatten := by
  have hPlen : (List.replicate 8192 (7 : Byte)).length = 8192 :=
    List.length_replicate 8192 7
  have hAlen : (encodeBlock (List.replicate 8192 (7 : Byte))).length = 8196 := by
    rw [encodeBlock_length, hPlen]
  have hP32 : (List.replicate 8192 (7 : Byte)).length < 4294967296 := by
    rw [hPlen]
    decide
  have hPcap : (List.replicate 8192 (7 : Byte)).length
      ≤ TB_STREAM_BLOCK_MAXN := by
    rw [hPlen]
    decide
  have hsplit : encodeBlock (List.replicate 8192 (7 : Byte))
      = encodeBlock (List.replicate 8192 7) ++ [] :=
    (List.append_nil _).symm
  have hd1 : decodeBlocks 8196 TB_STREAM_BLOCK_MAXN
      (encodeBlock (List.replicate 8192 7))
      = (List.replicate 8192 7, 8196) := by
    conv_lhs => rw [show (8196 : Nat) = 8195 + 1 from rfl, hsplit]
    rw [decodeBlocks_encodeBlock 8195 TB_STREAM_BLOCK_MAXN
      (List.replicate 8192 7) [] hP32 hPcap]
    rw [decodeBlocks_nil]
    simp only [List.append_nil, hPlen]
  have hstop : decodeBlocks 8200
      (TB_STREAM_BLOCK_MAXN - (List.replicate 8192 (7 : Byte)).length)
      (encodeBlock [9]) = ([], 0) := by
    rw [show (8200 : Nat) = 8199 + 1 from rfl]
    apply decodeBlocks_stop
    rw [hPlen]
    decide
  have hd3 : decodeBlocks 8201 TB_STREAM_BLOCK_MAXN
      (encodeBlock (List.replicate 8192 7) ++ encodeBlock [9])
      = (List.replicate 8192 7, 8196) := by
    conv_lhs => rw [show (8201 : Nat) = 8200 + 1 from rfl]
    rw [decodeBlocks_encodeBlock 8200 TB_STREAM_BLOCK_MAXN
      (List.replicate 8192 7) (encodeBlock [9]) hP32 hPcap]
    rw [hstop]
    simp only [List.append_nil, hPlen]
  -- two-call run
  obtain ⟨s1a, hfeed1, hh1, hmx1, hbs1, arr1, hbuf1, harr1⟩ :=
    model_first_feed (encodeBlock (List.replicate 8192 7))
      (by rw [hAlen]; decide) (by rw [hAlen]; decide)
  have hout1 : (decodeBlocks (encodeBlock (List.replicate 8192 (7 : Byte))).length
      TB_STREAM_BLOCK_MAXN (encodeBlock (List.replicate 8192 7))).1
      = List.replicate 8192 7 := by
    rw [hAlen, hd1]
  have hbs1z : s1a.buffer_size = 0 := by
    rw [hbs1, hAlen, hd1]
    rfl
  rw [hout1] at hfeed1
  obtain ⟨s2a, hfeed2, hh2, hmx2, hbs2, arr2, hbuf2, harr2⟩ :=
    model_clean_feed s1a arr1 hh1 hmx1 hbs1z hbuf1 harr1
      (encodeBlock [9]) (by decide) (by decide)
  have hout2 : (decodeBlocks (encodeBlock [9] : List Byte).length
      TB_STREAM_BLOCK_MAXN (encodeBlock [9])).1 = [9] := rfl
  rw [hout2] at hfeed2
  -- one-call run
  obtain ⟨s1b, hfeed3, hh3, hmx3, hbs3, arr3, hbuf3, harr3⟩ :=
    model_first_feed (encodeBlock (List.replicate 8192 7) ++ encodeBlock [9])
      (by rw [List.length_append, hAlen]; decide)
      (by rw [List.length_append, hAlen]; decide)
  have hABlen : (encodeBlock (List.replicate 8192 (7 : Byte))
      ++ encodeBlock [9]).length = 8201 := by
    rw [List.length_append, hAlen]
    decide
  have hout3 : (decodeBlocks (encodeBlock (List.replicate 8192 (7 : Byte))
      ++ encodeBlock [9]).length TB_STREAM_BLOCK_MAXN
      (encodeBlock (List.replicate 8192 7) ++ encodeBlock [9])).1
      = List.replicate 8192 7 := by
    rw [hABlen, hd3]
  rw [hout3] at hfeed3
  refine ⟨s2a, [List.replicate 8192 7, [9]], s1b, [List.replicate 8192 7],
    ?_, ?_, ?_⟩
  · simp only [dstream_run, hfeed1, hfeed2]
  · rw [List.append_assoc]
    simp only [dstream_run, hfeed3]
  · intro heq
    have hlen := congrArg List.length heq
    simp only [List.flatten_cons, List.flatten_nil, List.append_nil,
      List.length_append, List.length_replicate, List.length_cons,
      List.length_nil] at hlen
    omega

/-- C7 (amended): split-invariance does hold whenever the total decoded
payload of the stream fits the fixed `TB_STREAM_BLOCK_MAXN` output
buffer of a single call: for a well-formed compressed stream of nonempty
blocks, feeding it split as two nonempty parts yields across the two
calls the same combined decompressed output as feeding the concatenation
in one call. -/
theorem C7_amended_split_invariance (ps : List (List Byte))
    (hps : ∀ p ∈ ps, 0 < p.length)
    (hcap : ps.flatten.length ≤ TB_STREAM_BLOCK_MAXN)
    (a b : List Byte) (ha : 0 < a.length) (hb : 0 < b.length)
    (hab : a ++ b = modelStream ps) :
    ∃ sSplit outsSplit sOne outsOne,
      dstream_run lz4ModelCodec modelD0 [a, b] = some (sSplit, outsSplit) ∧
      dstream_run lz4ModelCodec modelD0 [a ++ b] = some (sOne, outsOne) ∧
      outsSplit.flatten = outsOne.flatten := by
  have hablen : a.length + b.length = (modelStream ps).length := by
    rw [← hab, List.length_append]
  obtain ⟨sS, outsS, hrunS, houtS⟩ := model_dstream_run ps hps hcap [a, b]
    0 modelD0 (show ModelInv ps 0 modelD0 from ModelInv_zero ps)
    (by
      intro c hc
      simp only [List.mem_cons, List.not_mem_nil, or_false] at hc
      rcases hc with h | h <;> subst h <;> assumption)
    (by
      simp only [List.flatten_cons, List.flatten_nil, List.append_nil,
        List.drop_zero]
      exact hab)
    (by omega)
  obtain ⟨sO, outsO, hrunO, houtO⟩ := model_dstream_run ps hps hcap [a ++ b]
    0 modelD0 (show ModelInv ps 0 modelD0 from ModelInv_zero ps)
    (by
      intro c hc
      simp only [List.mem_cons, List.not_mem_nil, or_false] at hc
      subst hc
      simp only [List.length_append]
      omega)
    (by
      simp only [List.flatten_cons, List.flatten_nil, List.append_nil,
        List.drop_zero]
      exact hab)
    (by omega)
  refine ⟨sS, outsS, sO, outsO, hrunS, hrunO, ?_⟩
  rw [show (0 : Nat) - HEADER_SIZE = 0 from rfl, consumeBlocks_zero]
    at houtS houtO
  simp only [List.nil_append] at houtS houtO
  rw [houtS, houtO]

/-- Witness for the amended C7 split-invariance: the two-block stream for
payloads `[1, 2]` and `[3]`, split one byte into the header. -/
theorem C7_amended_split_invariance_witness :
    ∃ sSplit outsSplit sOne outsOne,
      dstream_run lz4ModelCodec modelD0
          [(modelStream [[1, 2], [3]]).take 1,
            (modelStream [[1, 2], [3]]).drop 1]
        = some (sSplit, outsSplit) ∧
      dstream_run lz4ModelCodec modelD0
          [(modelStream [[1, 2], [3]]).take 1
            ++ (modelStream [[1, 2], [3]]).drop 1]
        = some (sOne, outsOne) ∧
      outsSplit.flatten = outsOne.flatten :=
  C7_amended_split_invariance [[1, 2], [3]] (by decide) (by decide)
    ((modelStream [[1, 2], [3]]).take 1) ((modelStream [[1, 2], [3]]).drop 1)
    (by decide) (by decide) (by decide)
